import Mathlib

/-!
# Verification of the Expense Tracker core (`Project3.py`)

Shallow embedding of the program's data model and operations:

* Program strings are `List Char`; Python's `str.strip`, `str.lower`,
  `str.title` are modelled on the ASCII range actually exercised.
* Python `float` amounts are modelled as exact rationals `ℚ`: every amount
  the program parses comes from a decimal numeral, and all claims compare
  values produced by the same parsing pipeline, so exact arithmetic is the
  faithful idealisation.
* The JSON layer (`json.load` / `json.dump`) is modelled at the level of
  parsed JSON values (`JVal`): a backing file is either absent, undecodable
  (`JSONDecodeError`), unreadable (any other `OSError`), or holds a parsed
  JSON value.  `json.dump`/`json.load` of such values are mutually inverse,
  so text encoding is abstracted away.
* Interactive operations (`delete_expense`, `edit_expense`, `add_expense`)
  become pure functions of the in-memory list and the strings the user
  would type at each prompt; the `saved` flag records whether
  `save_expenses` was invoked.
-/

/-! ## Python string primitives (ASCII model) -/

/-- The whitespace characters stripped by `str.strip()` (ASCII fragment). -/
def isPyWs (c : Char) : Bool :=
  c = ' ' || c = '\t' || c = '\n' || c = '\r' || c = '\x0b' || c = '\x0c'

/-- `str.strip()`: drop leading and trailing whitespace. -/
def pyStrip (s : List Char) : List Char :=
  ((s.dropWhile isPyWs).reverse.dropWhile isPyWs).reverse

/-- ASCII lower-casing of one character, as `str.lower()` does on A–Z. -/
def lowChar (c : Char) : Char :=
  if 65 ≤ c.toNat ∧ c.toNat ≤ 90 then Char.ofNat (c.toNat + 32) else c

/-- ASCII upper-casing of one character. -/
def upChar (c : Char) : Char :=
  if 97 ≤ c.toNat ∧ c.toNat ≤ 122 then Char.ofNat (c.toNat - 32) else c

/-- `str.lower()`. -/
def lowerStr (s : List Char) : List Char := s.map lowChar

/-- ASCII letter test (the "cased" characters of the model). -/
def isAlphaC (c : Char) : Bool :=
  (65 ≤ c.toNat && c.toNat ≤ 90) || (97 ≤ c.toNat && c.toNat ≤ 122)

/-- Worker for `str.title()`: the boolean records whether the previous
character was a letter. -/
def titleGo : Bool → List Char → List Char
  | _, [] => []
  | prevAlpha, c :: cs =>
    (if isAlphaC c then (if prevAlpha then lowChar c else upChar c) else c) ::
      titleGo (isAlphaC c) cs

/-- `str.title()`: first letter of each letter-run upper-cased, the rest
lower-cased. -/
def titleStr (s : List Char) : List Char := titleGo false s

/-- ASCII digit test (`\d` of the `re` module on the inputs in scope). -/
def isDig (c : Char) : Bool := 48 ≤ c.toNat && c.toNat ≤ 57

/-- Lexicographic (code-point) `≤` on strings, as Python string comparison. -/
def strLe : List Char → List Char → Bool
  | [], _ => true
  | _ :: _, [] => false
  | a :: as, b :: bs =>
    if a.toNat < b.toNat then true
    else if b.toNat < a.toNat then false
    else strLe as bs

/-- Split on a separator character (`str.split(sep)` semantics: empty pieces
between adjacent separators are kept). -/
def splitOnC (c : Char) : List Char → List (List Char)
  | [] => [[]]
  | x :: xs =>
    match splitOnC c xs with
    | [] => if x = c then [[], []] else [[x]]
    | h :: t => if x = c then [] :: h :: t else (x :: h) :: t

/-- Split on a character class, keeping empty pieces. -/
def splitP (p : Char → Bool) : List Char → List (List Char)
  | [] => [[]]
  | x :: xs =>
    match splitP p xs with
    | [] => if p x then [[], []] else [[x]]
    | h :: t => if p x then [] :: h :: t else (x :: h) :: t

/-- The maximal whitespace-free tokens of a string (how `\s+` separated
fields decompose a stripped input). -/
def wsTokens (s : List Char) : List (List Char) :=
  (splitP isPyWs s).filter (fun t => t ≠ [])

/-- The decimal digit character for `n < 10`. -/
def digitChar (n : Nat) : Char := Char.ofNat (48 + n)

/-- Two-digit zero-padded rendering (`strftime` `%m`/`%d`, and the pieces of
`%Y%m%d%H%M%S`). -/
def pad2 (n : Nat) : List Char := [digitChar (n / 10 % 10), digitChar (n % 10)]

/-- Four-digit zero-padded rendering (`strftime` `%Y` for the 4-digit years
`strptime` accepts). -/
def pad4 (n : Nat) : List Char :=
  [digitChar (n / 1000 % 10), digitChar (n / 100 % 10),
   digitChar (n / 10 % 10), digitChar (n % 10)]

/-- Numeric value of a digit string. -/
def decNat (cs : List Char) : Nat := cs.foldl (fun a c => a * 10 + (c.toNat - 48)) 0

/-! ## Amount parsing (`sanitize_amount`, lines 51–58) -/

/-- The character class kept by `re.sub(r"[^\d.\-]", "", s)`. -/
def isAmtChar (c : Char) : Bool := isDig c || c = '.' || c = '-'

/-- Fractional value of a digit string: `fracVal ds = decNat ds / 10^|ds|`. -/
def fracVal (ds : List Char) : ℚ := (decNat ds : ℚ) / (10 : ℚ) ^ ds.length

/-- Python `float()` on an unsigned numeral made only of digits and dots:
`digits`, `digits.digits`, `digits.`, or `.digits` (at least one digit,
at most one dot). -/
def pyFloatUnsigned (cs : List Char) : Option ℚ :=
  let intPart := cs.takeWhile isDig
  let rest := cs.dropWhile isDig
  match rest with
  | [] => if intPart = [] then none else some (decNat intPart : ℚ)
  | '.' :: frac =>
    if frac.all isDig ∧ (intPart ≠ [] ∨ frac ≠ []) then
      some ((decNat intPart : ℚ) + fracVal frac)
    else none
  | _ => none

/-- Python `float()` restricted to strings over `[0-9.\-]` (the only inputs
it receives from `sanitize_amount`): an optional single leading minus sign,
then an unsigned numeral.  `none` models `ValueError`. -/
def pyFloat (cs : List Char) : Option ℚ :=
  match cs with
  | '-' :: rest => (pyFloatUnsigned rest).map (fun q => -q)
  | _ => pyFloatUnsigned cs

/-- `sanitize_amount` (lines 51–58): strip, drop every character outside
`[0-9.\-]`, fail (`ValueError`, modelled `none`) when nothing remains,
otherwise convert with `float()`. -/
def sanitize_amount (s : List Char) : Option ℚ :=
  let t := pyStrip s
  let cleaned := t.filter isAmtChar
  if cleaned = [] then none else pyFloat cleaned

/-! ## Date parsing (`parse_date`, lines 61–73) -/

/-- A parsed calendar date. -/
structure DateT where
  year : Nat
  month : Nat
  day : Nat
deriving DecidableEq

/-- Gregorian leap-year rule (as `datetime`). -/
def isLeap (y : Nat) : Bool := y % 4 = 0 && (y % 100 ≠ 0 || y % 400 = 0)

/-- Days in a month (as `datetime`). -/
def daysInMonth (y m : Nat) : Nat :=
  if m = 2 then (if isLeap y then 29 else 28)
  else if m = 4 || m = 6 || m = 9 || m = 11 then 30
  else 31

/-- The dates `datetime` can represent with a 4-digit year field. -/
def ValidYMD (y m d : Nat) : Prop :=
  1 ≤ y ∧ y ≤ 9999 ∧ 1 ≤ m ∧ m ≤ 12 ∧ 1 ≤ d ∧ d ≤ daysInMonth y m

instance (y m d : Nat) : Decidable (ValidYMD y m d) := by
  unfold ValidYMD; infer_instance

/-- The `datetime` constructor invoked by `strptime`: rejects impossible
calendar days (`ValueError`, modelled `none`). -/
def mkDate (y m d : Nat) : Option DateT :=
  if ValidYMD y m d then some ⟨y, m, d⟩ else none

/-- The `%Y` field: exactly four digits. -/
def parse4 (p : List Char) : Option Nat :=
  if p.length = 4 && p.all isDig then some (decNat p) else none

/-- The `%m`/`%d` fields: one or two digits, value between 1 and `cap`
(12 for months, 31 for days), as the `_strptime` regular expressions. -/
def parse12 (cap : Nat) (p : List Char) : Option Nat :=
  if (p.length = 1 || p.length = 2) && p.all isDig then
    let v := decNat p
    if 1 ≤ v && v ≤ cap then some v else none
  else none

/-- Lower-cased abbreviated month names matched by `%b` (C locale). -/
def monthAbbrevs : List (List Char) :=
  ["jan".toList, "feb".toList, "mar".toList, "apr".toList, "may".toList,
   "jun".toList, "jul".toList, "aug".toList, "sep".toList, "oct".toList,
   "nov".toList, "dec".toList]

/-- Lower-cased full month names matched by `%B` (C locale). -/
def monthFulls : List (List Char) :=
  ["january".toList, "february".toList, "march".toList, "april".toList,
   "may".toList, "june".toList, "july".toList, "august".toList,
   "september".toList, "october".toList, "november".toList, "december".toList]

/-- Title-cased abbreviated month names as `strftime %b` renders them. -/
def monthAbbrevsDisp : List (List Char) :=
  ["Jan".toList, "Feb".toList, "Mar".toList, "Apr".toList, "May".toList,
   "Jun".toList, "Jul".toList, "Aug".toList, "Sep".toList, "Oct".toList,
   "Nov".toList, "Dec".toList]

/-- Title-cased full month names as `strftime %B` renders them. -/
def monthFullsDisp : List (List Char) :=
  ["January".toList, "February".toList, "March".toList, "April".toList,
   "May".toList, "June".toList, "July".toList, "August".toList,
   "September".toList, "October".toList, "November".toList, "December".toList]

/-- 1-based position of a token in a month-name table. -/
def monthIdxAux (tok : List Char) : Nat → List (List Char) → Option Nat
  | _, [] => none
  | i, n :: ns => if n = tok then some i else monthIdxAux tok (i + 1) ns

/-- `%b`/`%B` matching: case-insensitive exact match against a name table. -/
def matchMonth (names : List (List Char)) (tok : List Char) : Option Nat :=
  monthIdxAux (lowerStr tok) 1 names

/-- `strptime` with format `%Y-%m-%d`. -/
def fmtYmd (t : List Char) : Option DateT :=
  match splitOnC '-' t with
  | [ys, ms, ds] => do
    let y ← parse4 ys
    let m ← parse12 12 ms
    let d ← parse12 31 ds
    mkDate y m d
  | _ => none

/-- `strptime` with format `%d-%m-%Y` / `%d/%m/%Y` (separator `sep`). -/
def fmtDmy (sep : Char) (t : List Char) : Option DateT :=
  match splitOnC sep t with
  | [ds, ms, ys] => do
    let d ← parse12 31 ds
    let m ← parse12 12 ms
    let y ← parse4 ys
    mkDate y m d
  | _ => none

/-- `strptime` with format `%d %b %Y` / `%d %B %Y` (name table `names`);
the literal blank in the format matches a whitespace run. -/
def fmtDnameY (names : List (List Char)) (t : List Char) : Option DateT :=
  match wsTokens t with
  | [ds, ms, ys] => do
    let d ← parse12 31 ds
    let m ← matchMonth names ms
    let y ← parse4 ys
    mkDate y m d
  | _ => none

/-- The five formats of line 66, in source order. -/
def dateFormats : List (List Char → Option DateT) :=
  [fmtYmd, fmtDmy '-', fmtDmy '/', fmtDnameY monthAbbrevs, fmtDnameY monthFulls]

/-- First format that succeeds wins (the `for fmt in formats` loop). -/
def firstSome (t : List Char) : List (List Char → Option DateT) → Option DateT
  | [] => none
  | f :: fs => match f t with
    | some d => some d
    | none => firstSome t fs

/-- `d.strftime("%Y-%m-%d")`: the canonical date string. -/
def canonDate (dt : DateT) : List Char :=
  pad4 dt.year ++ '-' :: (pad2 dt.month ++ '-' :: pad2 dt.day)

/-- `parse_date` (lines 61–73): strip; blank input means today; otherwise
try the five formats in order and reformat the first success canonically;
`none` models the final `ValueError`. -/
def parse_date (today : List Char) (s : List Char) : Option (List Char) :=
  let t := pyStrip s
  if t = [] then some today
  else (firstSome t dateFormats).map canonDate

/-- The canonical `YYYY-MM-DD` rendering of a day (input shape 1). -/
def shYmd (y m d : Nat) : List Char := pad4 y ++ '-' :: (pad2 m ++ '-' :: pad2 d)

/-- The `DD-MM-YYYY` rendering of a day (input shape 2). -/
def shDmy (y m d : Nat) : List Char := pad2 d ++ '-' :: (pad2 m ++ '-' :: pad4 y)

/-- The `DD/MM/YYYY` rendering of a day (input shape 3). -/
def shDmySlash (y m d : Nat) : List Char := pad2 d ++ '/' :: (pad2 m ++ '/' :: pad4 y)

/-- The `DD Mon YYYY` rendering of a day (input shape 4). -/
def shDbY (y m d : Nat) : List Char :=
  pad2 d ++ ' ' :: (monthAbbrevsDisp.getD (m - 1) [] ++ ' ' :: pad4 y)

/-- The `DD Month YYYY` rendering of a day (input shape 5). -/
def shDBY (y m d : Nat) : List Char :=
  pad2 d ++ ' ' :: (monthFullsDisp.getD (m - 1) [] ++ ' ' :: pad4 y)

/-! ## Records and the JSON store (`load_expenses`/`save_expenses`, lines 16–48) -/

/-- An expense record as built on line 108:
`{"amount": amount, "category": category, "date": date}`. -/
structure Expense where
  amount : ℚ
  category : List Char
  date : List Char
deriving DecidableEq

/-- A parsed JSON value (the result of `json.load`). -/
inductive JVal where
  | jnum (q : ℚ)
  | jstr (s : List Char)
  | jbool (b : Bool)
  | jnull
  | jarr (l : List JVal)
  | jobj (fields : List (List Char × JVal))

/-- Key lookup in a JSON object. -/
def lookupJ (k : List Char) : List (List Char × JVal) → Option JVal
  | [] => none
  | (k', v) :: t => if k' = k then some v else lookupJ k t

/-- Field access `v[k]` on a JSON value (`none` when not an object or the
key is missing). -/
def getFieldJ (k : List Char) : JVal → Option JVal
  | .jobj fields => lookupJ k fields
  | _ => none

/-- Does a JSON value have all three expense fields present?  (The record
invariant of the spec's data model.) -/
def wellFormedRec (v : JVal) : Bool :=
  match v with
  | .jobj fields =>
    (lookupJ "amount".toList fields).isSome &&
    (lookupJ "category".toList fields).isSome &&
    (lookupJ "date".toList fields).isSome
  | _ => false

/-- `json.dump` of one record dict. -/
def toJVal (e : Expense) : JVal :=
  .jobj [("amount".toList, .jnum e.amount),
         ("category".toList, .jstr e.category),
         ("date".toList, .jstr e.date)]

/-- Field-wise decoding of a record value (inverse of `toJVal`). -/
def decodeExpense (v : JVal) : Option Expense :=
  match getFieldJ "amount".toList v, getFieldJ "category".toList v,
      getFieldJ "date".toList v with
  | some (.jnum a), some (.jstr c), some (.jstr d) => some ⟨a, c, d⟩
  | _, _, _ => none

/-- `FILE_NAME = "expenses.json"` (line 16). -/
def FILE_NAME : List Char := "expenses.json".toList

/-- The wall-clock instant read by `datetime.now()` when a backup name is
built. -/
structure Timestamp where
  year : Nat
  month : Nat
  day : Nat
  hour : Nat
  minute : Nat
  second : Nat

/-- `datetime.now().strftime("%Y%m%d%H%M%S")`. -/
def fmtTS (t : Timestamp) : List Char :=
  pad4 t.year ++ pad2 t.month ++ pad2 t.day ++ pad2 t.hour ++
    pad2 t.minute ++ pad2 t.second

/-- In-range clock readings (what `datetime.now()` can produce). -/
def TSValid (t : Timestamp) : Prop :=
  t.year ≤ 9999 ∧ t.month ≤ 99 ∧ t.day ≤ 99 ∧ t.hour ≤ 99 ∧
    t.minute ≤ 99 ∧ t.second ≤ 99

/-- The backup path built on line 32. -/
def backupName (now : Timestamp) : List Char :=
  FILE_NAME ++ ".backup.".toList ++ fmtTS now

/-- The observable state of the backing file when `load_expenses` runs:
absent, present with content that decodes to a JSON value, present but
undecodable (`json.JSONDecodeError`), or unreadable (any other exception
while opening/reading). -/
inductive FileState where
  | absent
  | content (parsed : Option JVal)
  | unreadable

/-- What a call to `load_expenses` produces: the returned list, whether a
warning was printed, the backup path the corrupted file was renamed to (if
any), and whether the generic read-failure handler reported an error.
The function is total: no exception escapes. -/
structure LoadResult where
  expenses : List JVal
  warned : Bool
  backup : Option (List Char)
  reportedFailure : Bool

/-- `load_expenses` (lines 19–40).  `renameOk` says whether the
`os.rename` to the backup path succeeds (its failure is swallowed). -/
def load_expenses (fs : FileState) (now : Timestamp) (renameOk : Bool) : LoadResult :=
  match fs with
  | .absent => ⟨[], false, none, false⟩
  | .content (some (.jarr l)) => ⟨l, false, none, false⟩
  | .content (some _) => ⟨[], true, none, false⟩
  | .content none =>
    ⟨[], true, if renameOk then some (backupName now) else none, false⟩
  | .unreadable => ⟨[], false, none, true⟩

/-- `save_expenses` (lines 43–48) on its success path: the file now holds
the serialized list. -/
def save_expenses (es : List Expense) : FileState :=
  .content (some (.jarr (es.map toJVal)))

/-! ## Display ordering and the interactive operations (lines 116–217) -/

/-- `sorted(expenses, key=lambda x: x["date"], reverse=True)`: descending
by date.  (Python's `reverse=True` keeps ties in original order, which is
what a stable insertion into the first position with a `≥`-comparison
reproduces.) -/
def dateDescRel (a b : Expense) : Prop := strLe b.date a.date = true

instance : DecidableRel dateDescRel := fun a b => by
  unfold dateDescRel; infer_instance

/-- The displayed ordering shared by list/edit/delete. -/
def displayed (es : List Expense) : List Expense :=
  List.insertionSort dateDescRel es

/-- Result of one interactive operation: the new in-memory list and whether
`save_expenses` was called. -/
structure OpResult where
  list : List Expense
  saved : Bool
deriving DecidableEq

/-- One run of Python digits with optional single underscores between them
(`int()` accepts `1_000`), accumulating the value. -/
def pyDigitsRest (acc : Nat) : List Char → Option Nat
  | [] => some acc
  | '_' :: c :: cs =>
    if isDig c then pyDigitsRest (acc * 10 + (c.toNat - 48)) cs else none
  | c :: cs =>
    if isDig c then pyDigitsRest (acc * 10 + (c.toNat - 48)) cs else none

/-- Unsigned part of `int()`: at least one digit, underscores only between
digits. -/
def pyIntCore : List Char → Option Nat
  | [] => none
  | c :: cs => if isDig c then pyDigitsRest (c.toNat - 48) cs else none

/-- Python `int(str)` on an already-stripped string: optional sign, then
digits. `none` models `ValueError`. -/
def pyInt : List Char → Option Int
  | [] => none
  | c :: rest =>
    if c = '-' then (pyIntCore rest).map (fun n => -(n : Int))
    else if c = '+' then (pyIntCore rest).map (fun n => (n : Int))
    else (pyIntCore (c :: rest)).map (fun n => (n : Int))

/-- Python list indexing `l[i]`: non-negative from the front, negative from
the back, `none` models `IndexError`. -/
def pyIndex (l : List Expense) (i : Int) : Option Expense :=
  if 0 ≤ i then l.get? i.toNat
  else if (l.length : Int) + i < 0 then none
  else l.get? ((l.length : Int) + i).toNat

/-- Remove the first element equal to `item`, saving afterwards; if none is
equal (`"Could not find the item to delete."`), nothing is saved (the loop
of lines 166–172). -/
def removeFirst (item : Expense) : List Expense → OpResult
  | [] => ⟨[], false⟩
  | e :: t =>
    if e = item then ⟨t, true⟩
    else
      let r := removeFirst item t
      ⟨e :: r.list, r.saved⟩

/-- Index of the first element structurally equal to `item`
(`next(i for i, e in enumerate(expenses) if e == item)`). -/
def idxOfFirst (item : Expense) : List Expense → Option Nat
  | [] => none
  | e :: t => if e = item then some 0 else (idxOfFirst item t).map (· + 1)

/-- `delete_expense` (lines 149–176) as a function of the list and the two
prompt answers. -/
def delete_expense (es : List Expense) (choice confirm : List Char) : OpResult :=
  if es = [] then ⟨es, false⟩
  else
    let ch := pyStrip choice
    if lowerStr ch = "q".toList then ⟨es, false⟩
    else
      match pyInt ch with
      | none => ⟨es, false⟩
      | some n =>
        match pyIndex (displayed es) (n - 1) with
        | none => ⟨es, false⟩
        | some item =>
          if lowerStr (pyStrip confirm) = "y".toList then removeFirst item es
          else ⟨es, false⟩

/-- The field updates of lines 195–212 applied to the record at the
resolved index: blank keeps, unparsable keeps with a warning, parsable
replaces (category is title-cased). -/
def updateRec (old : Expense) (amtIn catIn dateIn today : List Char) : Expense :=
  let a1 := if pyStrip amtIn = [] then old.amount
    else match sanitize_amount amtIn with
      | some q => q
      | none => old.amount
  let c1 := if pyStrip catIn = [] then old.category else titleStr (pyStrip catIn)
  let d1 := if pyStrip dateIn = [] then old.date
    else match parse_date today (pyStrip dateIn) with
      | some x => x
      | none => old.date
  ⟨a1, c1, d1⟩

/-- `edit_expense` (lines 179–217) as a function of the list and the four
prompt answers. -/
def edit_expense (es : List Expense) (choice amtIn catIn dateIn today : List Char) :
    OpResult :=
  if es = [] then ⟨es, false⟩
  else
    let ch := pyStrip choice
    if lowerStr ch = "q".toList then ⟨es, false⟩
    else
      match pyInt ch with
      | none => ⟨es, false⟩
      | some n =>
        match pyIndex (displayed es) (n - 1) with
        | none => ⟨es, false⟩
        | some item =>
          match idxOfFirst item es with
          | none => ⟨es, false⟩
          | some i =>
            match es.get? i with
            | none => ⟨es, false⟩
            | some old => ⟨es.set i (updateRec old amtIn catIn dateIn today), true⟩

/-- The record construction and append of `add_expense` (lines 90–110),
as a function of the accepted prompt answers. -/
def addExpense (es : List Expense) (amtIn catIn dateIn today : List Char) :
    Option (List Expense) := do
  let amount ← sanitize_amount amtIn
  let cat0 := titleStr (pyStrip catIn)
  let category := if cat0 = [] then "Misc".toList else cat0
  let date ← parse_date today dateIn
  some (es ++ [⟨amount, category, date⟩])

/-! ## Summary (`view_summary`, lines 126–146) -/

/-- `total = sum(float(e["amount"]) for e in expenses)`. -/
def viewTotal (es : List Expense) : ℚ := (es.map (·.amount)).sum

/-- `defaultdict(float)` accumulation step: add `v` under key `k`,
appending a fresh entry when the key is new (dicts preserve insertion
order). -/
def upsert (k : List Char) (v : ℚ) : List (List Char × ℚ) → List (List Char × ℚ)
  | [] => [(k, v)]
  | (k', v') :: t => if k' = k then (k', v' + v) :: t else (k', v') :: upsert k v t

/-- Lookup in an association list of sums. -/
def lookupB (k : List Char) : List (List Char × ℚ) → Option ℚ
  | [] => none
  | (k', v) :: t => if k' = k then some v else lookupB k t

/-- The grouped sums of the `for e in expenses` loop (lines 135–138). -/
def accumBy (key : Expense → List Char) (es : List Expense) : List (List Char × ℚ) :=
  es.foldl (fun acc e => upsert (key e) e.amount acc) []

/-- `e["date"][:7]`: the `YYYY-MM` month key. -/
def monthOf (e : Expense) : List Char := e.date.take 7

/-- `sorted(by_cat.items(), key=lambda x: -x[1])`: descending by summed
amount. -/
def catRel (a b : List Char × ℚ) : Prop := b.2 ≤ a.2

instance : DecidableRel catRel := fun a b => by
  unfold catRel; infer_instance

/-- `sorted(by_month.items())`: ascending by month key (keys are unique, so
the tuple comparison reduces to the string comparison). -/
def monRel (a b : List Char × ℚ) : Prop := strLe a.1 b.1 = true

instance : DecidableRel monRel := fun a b => by
  unfold monRel; infer_instance

/-- The by-category listing of lines 140–142. -/
def byCat (es : List Expense) : List (List Char × ℚ) :=
  List.insertionSort catRel (accumBy (fun e => e.category) es)

/-- The by-month listing of lines 144–146. -/
def byMonth (es : List Expense) : List (List Char × ℚ) :=
  List.insertionSort monRel (accumBy monthOf es)

/-! ## Helper lemmas: the string order -/

theorem strLe_refl (a : List Char) : strLe a a = true := by
  induction a with
  | nil => rfl
  | cons c cs ih => simp [strLe, ih]

theorem strLe_total (a b : List Char) : strLe a b = true ∨ strLe b a = true := by
  induction a generalizing b with
  | nil => left; rfl
  | cons c cs ih =>
    cases b with
    | nil => right; rfl
    | cons d ds =>
      rcases Nat.lt_trichotomy c.toNat d.toNat with h | h | h
      · left; simp [strLe, h]
      · have hne : ¬ c.toNat < d.toNat := by omega
        have hne' : ¬ d.toNat < c.toNat := by omega
        rcases ih ds with h' | h'
        · left; simp [strLe, hne, hne', h']
        · right; simp [strLe, hne, hne', h']
      · right; simp [strLe, h]

theorem strLe_trans {a b c : List Char} (h1 : strLe a b = true)
    (h2 : strLe b c = true) : strLe a c = true := by
  induction a generalizing b c with
  | nil => rfl
  | cons x xs ih =>
    cases b with
    | nil => simp [strLe] at h1
    | cons y ys =>
      cases c with
      | nil => simp [strLe] at h2
      | cons z zs =>
        simp only [strLe] at h1 h2 ⊢
        by_cases hxy : x.toNat < y.toNat
        · by_cases hyz : y.toNat < z.toNat
          · have h3 : x.toNat < z.toNat := by omega
            simp [h3]
          · by_cases hzy : z.toNat < y.toNat
            · simp [hxy, hyz, hzy] at h2
            · have h3 : x.toNat < z.toNat := by omega
              simp [h3]
        · by_cases hyx : y.toNat < x.toNat
          · simp [hxy, hyx] at h1
          · by_cases hyz : y.toNat < z.toNat
            · have h3 : x.toNat < z.toNat := by omega
              simp [h3]
            · by_cases hzy : z.toNat < y.toNat
              · simp [hxy, hyz, hzy] at h2
              · have hxz : ¬ x.toNat < z.toNat := by omega
                have hzx : ¬ z.toNat < x.toNat := by omega
                simp only [if_neg hxy, if_neg hyx] at h1
                simp only [if_neg hyz, if_neg hzy] at h2
                simp only [if_neg hxz, if_neg hzx]
                exact ih h1 h2

instance : IsTotal Expense dateDescRel :=
  ⟨fun a b => (strLe_total b.date a.date).imp (fun h => h) (fun h => h)⟩

instance : IsTrans Expense dateDescRel :=
  ⟨fun _ _ _ h1 h2 => strLe_trans h2 h1⟩

instance : IsTotal (List Char × ℚ) catRel :=
  ⟨fun a b => (le_total b.2 a.2).imp (fun h => h) (fun h => h)⟩

instance : IsTrans (List Char × ℚ) catRel :=
  ⟨fun _ _ _ h1 h2 => le_trans h2 h1⟩

instance : IsTotal (List Char × ℚ) monRel :=
  ⟨fun a b => (strLe_total a.1 b.1).imp (fun h => h) (fun h => h)⟩

instance : IsTrans (List Char × ℚ) monRel :=
  ⟨fun _ _ _ h1 h2 => strLe_trans h1 h2⟩

/-! ## Helper lemmas: stability of the sort -/

theorem filter_orderedInsert {α : Type} (r : α → α → Prop) [DecidableRel r]
    (p : α → Bool) (a : α) (ha : p a = true)
    (hcmp : ∀ y, p y = true → r a y) :
    ∀ l : List α, (List.orderedInsert r a l).filter p = a :: l.filter p := by
  intro l
  induction l with
  | nil => simp [List.orderedInsert, ha]
  | cons y t ih =>
    by_cases hr : r a y
    · simp [List.orderedInsert, hr, ha]
    · have hy : p y = false := by
        cases hpy : p y with
        | false => rfl
        | true => exact absurd (hcmp y hpy) hr
      simp [List.orderedInsert, hr, List.filter, hy, ih]

theorem filter_orderedInsert_neg {α : Type} (r : α → α → Prop) [DecidableRel r]
    (p : α → Bool) (a : α) (ha : p a = false) :
    ∀ l : List α, (List.orderedInsert r a l).filter p = l.filter p := by
  intro l
  induction l with
  | nil => simp [List.orderedInsert, ha]
  | cons y t ih =>
    by_cases hr : r a y
    · simp [List.orderedInsert, hr, ha]
    · simp only [List.orderedInsert, if_neg hr, List.filter, ih]

/-- Stability of the displayed ordering: among records with one given date
the sorted listing keeps the storage order. -/
theorem displayed_filter_stable (es : List Expense) (D : List Char) :
    (displayed es).filter (fun e => e.date = D) =
      es.filter (fun e => e.date = D) := by
  induction es with
  | nil => rfl
  | cons a t ih =>
    show (List.orderedInsert dateDescRel a (displayed t)).filter _ = _
    by_cases ha : a.date = D
    · rw [filter_orderedInsert dateDescRel _ a (by simp [ha])
        (fun y hy => ?_) (displayed t)]
      · simp [List.filter_cons, ha, ih]
      · have hyD : y.date = D := by simpa using hy
        show strLe y.date a.date = true
        rw [hyD, ha]
        exact strLe_refl D
    · rw [filter_orderedInsert_neg dateDescRel _ a (by simp [ha]) (displayed t)]
      simp [List.filter_cons, ha, ih]

/-! ## Helper lemmas: stripping and character classes -/

theorem dropWhile_eq_self_of_head {p : Char → Bool} {xs : List Char}
    (h : ∀ a, xs.head? = some a → p a = false) : xs.dropWhile p = xs := by
  cases xs with
  | nil => rfl
  | cons x t => simp [List.dropWhile_cons, h x rfl]

theorem filter_dropWhile {p q : Char → Bool} {xs : List Char}
    (h : ∀ c, q c = true → p c = false) :
    (xs.dropWhile q).filter p = xs.filter p := by
  induction xs with
  | nil => rfl
  | cons x t ih =>
    by_cases hq : q x = true
    · rw [List.dropWhile_cons, if_pos hq, ih, List.filter_cons, h x hq]
      simp
    · rw [List.dropWhile_cons, if_neg hq]

/-- Stripping commutes away under a filter that rejects whitespace. -/
theorem filter_pyStrip {p : Char → Bool} (s : List Char)
    (h : ∀ c, isPyWs c = true → p c = false) :
    (pyStrip s).filter p = s.filter p := by
  unfold pyStrip
  rw [List.filter_reverse, filter_dropWhile h, List.filter_reverse,
    List.reverse_reverse, filter_dropWhile h]

theorem pyStrip_eq_self {xs : List Char}
    (h1 : ∀ a, xs.head? = some a → isPyWs a = false)
    (h2 : ∀ a, xs.getLast? = some a → isPyWs a = false) : pyStrip xs = xs := by
  unfold pyStrip
  rw [dropWhile_eq_self_of_head h1]
  rw [dropWhile_eq_self_of_head (fun a ha => h2 a (by rwa [← List.head?_reverse]))]
  exact List.reverse_reverse xs

theorem pyStrip_all_not_ws {xs : List Char}
    (h : ∀ c ∈ xs, isPyWs c = false) : pyStrip xs = xs := by
  refine pyStrip_eq_self (fun a ha => h a ?_) (fun a ha => h a ?_)
  · exact List.mem_of_mem_head? ha
  · exact List.mem_of_mem_getLast? ha

theorem isPyWs_cases {c : Char} (h : isPyWs c = true) :
    c = ' ' ∨ c = '\t' ∨ c = '\n' ∨ c = '\r' ∨ c = '\x0b' ∨ c = '\x0c' := by
  simp [isPyWs] at h
  tauto

theorem isDig_not_ws {c : Char} (h : isDig c = true) : isPyWs c = false := by
  cases hw : isPyWs c with
  | false => rfl
  | true =>
    rcases isPyWs_cases hw with rfl | rfl | rfl | rfl | rfl | rfl <;> simp [isDig] at h

theorem amtChar_not_ws {c : Char} (h : isAmtChar c = true) : isPyWs c = false := by
  cases hw : isPyWs c with
  | false => rfl
  | true =>
    rcases isPyWs_cases hw with rfl | rfl | rfl | rfl | rfl | rfl <;>
      simp [isAmtChar, isDig] at h

/-! ## Helper lemmas: digit strings -/

theorem digitChar_toNat : ∀ n < 10, (digitChar n).toNat = 48 + n := by decide

theorem digitChar_isDig : ∀ n < 10, isDig (digitChar n) = true := by decide

theorem pad4_decNat (y : Nat) : decNat (pad4 y) = y % 10000 := by
  have h1 := digitChar_toNat (y / 1000 % 10) (Nat.mod_lt _ (by omega))
  have h2 := digitChar_toNat (y / 100 % 10) (Nat.mod_lt _ (by omega))
  have h3 := digitChar_toNat (y / 10 % 10) (Nat.mod_lt _ (by omega))
  have h4 := digitChar_toNat (y % 10) (Nat.mod_lt _ (by omega))
  simp only [decNat, pad4, List.foldl, h1, h2, h3, h4]
  omega

theorem pad4_all_dig (y : Nat) : (pad4 y).all isDig = true := by
  have h1 := digitChar_isDig (y / 1000 % 10) (Nat.mod_lt _ (by omega))
  have h2 := digitChar_isDig (y / 100 % 10) (Nat.mod_lt _ (by omega))
  have h3 := digitChar_isDig (y / 10 % 10) (Nat.mod_lt _ (by omega))
  have h4 := digitChar_isDig (y % 10) (Nat.mod_lt _ (by omega))
  simp [pad4, h1, h2, h3, h4]

theorem pad4_length (y : Nat) : (pad4 y).length = 4 := rfl

theorem pad2_decNat (m : Nat) : decNat (pad2 m) = m % 100 := by
  have h1 := digitChar_toNat (m / 10 % 10) (Nat.mod_lt _ (by omega))
  have h2 := digitChar_toNat (m % 10) (Nat.mod_lt _ (by omega))
  simp only [decNat, pad2, List.foldl, h1, h2]
  omega

theorem pad2_all_dig (m : Nat) : (pad2 m).all isDig = true := by
  have h1 := digitChar_isDig (m / 10 % 10) (Nat.mod_lt _ (by omega))
  have h2 := digitChar_isDig (m % 10) (Nat.mod_lt _ (by omega))
  simp [pad2, h1, h2]

theorem pad2_length (m : Nat) : (pad2 m).length = 2 := rfl

theorem all_isDig_not_mem {cs : List Char} {c₀ : Char} (hc : isDig c₀ = false)
    (h : cs.all isDig = true) : c₀ ∉ cs := by
  intro hmem
  have := (List.all_eq_true.mp h) c₀ hmem
  rw [hc] at this
  cases this

theorem all_isDig_not_ws {cs : List Char} (h : cs.all isDig = true) :
    ∀ c ∈ cs, isPyWs c = false :=
  fun c hc => isDig_not_ws ((List.all_eq_true.mp h) c hc)

theorem parse4_pad4 (y : Nat) (hy : y < 10000) : parse4 (pad4 y) = some y := by
  rw [parse4, if_pos (by simp [pad4_length, pad4_all_dig]), pad4_decNat,
    Nat.mod_eq_of_lt hy]

theorem parse12_pad2 (cap m : Nat) (h1 : 1 ≤ m) (h2 : m ≤ cap) (h3 : m < 100) :
    parse12 cap (pad2 m) = some m := by
  rw [parse12]
  rw [if_pos (by simp [pad2_length, pad2_all_dig])]
  simp only [pad2_decNat, Nat.mod_eq_of_lt h3]
  rw [if_pos (by simp [h1, h2])]

theorem parse4_pad2 (m : Nat) : parse4 (pad2 m) = none := by
  rw [parse4, if_neg]
  simp [pad2_length]

/-! ## Helper lemmas: splitting -/

theorem splitOnC_ne_nil (c : Char) (xs : List Char) : splitOnC c xs ≠ [] := by
  cases xs with
  | nil => simp [splitOnC]
  | cons x t =>
    rw [splitOnC]
    rcases h : splitOnC c t with _ | ⟨h', t'⟩ <;> by_cases hx : x = c <;>
      simp [hx]

theorem splitOnC_no_sep {c : Char} {xs : List Char} (h : c ∉ xs) :
    splitOnC c xs = [xs] := by
  induction xs with
  | nil => rfl
  | cons x t ih =>
    have hx : x ≠ c := fun hxc => h (hxc ▸ List.mem_cons_self x t)
    have ht : c ∉ t := fun hc => h (List.mem_cons_of_mem x hc)
    rw [splitOnC, ih ht]
    simp [hx]

theorem splitOnC_append {c : Char} {xs ys : List Char} (h : c ∉ xs) :
    splitOnC c (xs ++ c :: ys) = xs :: splitOnC c ys := by
  induction xs with
  | nil =>
    simp only [List.nil_append]
    rw [splitOnC]
    rcases hys : splitOnC c ys with _ | ⟨h', t'⟩
    · exact absurd hys (splitOnC_ne_nil c ys)
    · simp
  | cons x t ih =>
    have hx : x ≠ c := fun hxc => h (hxc ▸ List.mem_cons_self x t)
    have ht : c ∉ t := fun hc => h (List.mem_cons_of_mem x hc)
    rw [List.cons_append, splitOnC, ih ht]
    simp [hx]

theorem splitP_ne_nil (p : Char → Bool) (xs : List Char) : splitP p xs ≠ [] := by
  cases xs with
  | nil => simp [splitP]
  | cons x t =>
    rw [splitP]
    rcases h : splitP p t with _ | ⟨h', t'⟩ <;> by_cases hx : p x = true <;>
      simp [hx]

theorem splitP_no {p : Char → Bool} {xs : List Char}
    (h : ∀ x ∈ xs, p x = false) : splitP p xs = [xs] := by
  induction xs with
  | nil => rfl
  | cons x t ih =>
    have hx : p x = false := h x (List.mem_cons_self x t)
    have ht : ∀ y ∈ t, p y = false := fun y hy => h y (List.mem_cons_of_mem x hy)
    rw [splitP, ih ht]
    simp [hx]

theorem splitP_append {p : Char → Bool} {c : Char} {xs ys : List Char}
    (h : ∀ x ∈ xs, p x = false) (hc : p c = true) :
    splitP p (xs ++ c :: ys) = xs :: splitP p ys := by
  induction xs with
  | nil =>
    simp only [List.nil_append]
    rw [splitP]
    rcases hys : splitP p ys with _ | ⟨h', t'⟩
    · exact absurd hys (splitP_ne_nil p ys)
    · simp [hc]
  | cons x t ih =>
    have hx : p x = false := h x (List.mem_cons_self x t)
    have ht : ∀ y ∈ t, p y = false := fun y hy => h y (List.mem_cons_of_mem x hy)
    rw [List.cons_append, splitP, ih ht]
    simp [hx]

/-- Tokenisation of a three-token string with single blanks. -/
theorem wsTokens_three {t1 t2 t3 : List Char}
    (h1 : ∀ c ∈ t1, isPyWs c = false) (h2 : ∀ c ∈ t2, isPyWs c = false)
    (h3 : ∀ c ∈ t3, isPyWs c = false)
    (n1 : t1 ≠ []) (n2 : t2 ≠ []) (n3 : t3 ≠ []) :
    wsTokens (t1 ++ ' ' :: (t2 ++ ' ' :: t3)) = [t1, t2, t3] := by
  unfold wsTokens
  rw [splitP_append h1 (by decide), splitP_append h2 (by decide), splitP_no h3]
  simp [n1, n2, n3]

/-! ## Helper lemmas: month names and shape evaluation -/

theorem daysInMonth_le (y m : Nat) : daysInMonth y m ≤ 31 := by
  unfold daysInMonth
  split_ifs <;> omega

theorem monthAbbrev_match : ∀ m < 13, 1 ≤ m →
    matchMonth monthAbbrevs (monthAbbrevsDisp.getD (m - 1) []) = some m := by
  decide

theorem monthFull_match : ∀ m < 13, 1 ≤ m →
    matchMonth monthFulls (monthFullsDisp.getD (m - 1) []) = some m := by
  decide

theorem monthFull_not_abbrev : ∀ m < 13, 1 ≤ m → m ≠ 5 →
    matchMonth monthAbbrevs (monthFullsDisp.getD (m - 1) []) = none := by
  decide

theorem monthFull_five : monthFullsDisp.getD (5 - 1) [] = monthAbbrevsDisp.getD (5 - 1) [] := by
  decide

/-- Character-class facts about the displayed month names: non-empty, no
whitespace, no `-`, no `/`. -/
def NameOk (n : List Char) : Prop :=
  n ≠ [] ∧ (∀ c ∈ n, isPyWs c = false) ∧ '-' ∉ n ∧ '/' ∉ n

instance (n : List Char) : Decidable (NameOk n) := by
  unfold NameOk; infer_instance

theorem monthAbbrev_ok : ∀ m < 13, NameOk (monthAbbrevsDisp.getD (m - 1) []) := by
  decide

theorem monthFull_ok : ∀ m < 13, NameOk (monthFullsDisp.getD (m - 1) []) := by
  decide

theorem pad2_ne_nil (n : Nat) : pad2 n ≠ [] := by simp [pad2]

theorem pad4_ne_nil (n : Nat) : pad4 n ≠ [] := by simp [pad4]

theorem pad2_not_mem {c₀ : Char} (hc : isDig c₀ = false) (n : Nat) : c₀ ∉ pad2 n :=
  all_isDig_not_mem hc (pad2_all_dig n)

theorem pad4_not_mem {c₀ : Char} (hc : isDig c₀ = false) (n : Nat) : c₀ ∉ pad4 n :=
  all_isDig_not_mem hc (pad4_all_dig n)

/-- Membership in a three-piece separated string. -/
theorem mem_threeParts {c₀ sep : Char} {p1 p2 p3 : List Char}
    (h1 : c₀ ∉ p1) (h2 : c₀ ∉ p2) (h3 : c₀ ∉ p3) (hs : c₀ ≠ sep) :
    c₀ ∉ p1 ++ sep :: (p2 ++ sep :: p3) := by
  simp only [List.mem_append, List.mem_cons]
  push_neg
  exact ⟨h1, hs, h2, hs, h3⟩

theorem strip_sh_digits {sep : Char} (hsep : isPyWs sep = false)
    {p1 p2 p3 : List Char}
    (h1 : ∀ c ∈ p1, isPyWs c = false) (h2 : ∀ c ∈ p2, isPyWs c = false)
    (h3 : ∀ c ∈ p3, isPyWs c = false) :
    pyStrip (p1 ++ sep :: (p2 ++ sep :: p3)) = p1 ++ sep :: (p2 ++ sep :: p3) := by
  apply pyStrip_all_not_ws
  intro c hc
  simp only [List.mem_append, List.mem_cons] at hc
  rcases hc with h | rfl | h | rfl | h
  · exact h1 c h
  · exact hsep
  · exact h2 c h
  · exact hsep
  · exact h3 c h

/-- Stripping is the identity on the blank-separated shapes: they start and
end with a digit. -/
theorem strip_sh_name {p1 p3 nm : List Char}
    (hp1 : p1.all isDig = true) (hp1n : p1 ≠ []) (hp3 : p3.all isDig = true)
    (hp3n : p3 ≠ []) :
    pyStrip (p1 ++ ' ' :: (nm ++ ' ' :: p3)) = p1 ++ ' ' :: (nm ++ ' ' :: p3) := by
  apply pyStrip_eq_self
  · intro a ha
    rw [List.head?_append] at ha
    rcases hh : p1.head? with _ | ⟨b⟩
    · exact absurd (List.head?_eq_none_iff.mp hh) hp1n
    · rw [hh] at ha
      simp only [Option.or_some, Option.some.injEq] at ha
      subst ha
      exact isDig_not_ws ((List.all_eq_true.mp hp1) b (List.mem_of_mem_head? (hh ▸ rfl)))
  · intro a ha
    have hassoc : p1 ++ ' ' :: (nm ++ ' ' :: p3) = (p1 ++ ' ' :: nm ++ [' ']) ++ p3 := by
      simp
    rw [hassoc, List.getLast?_append] at ha
    rcases hl : p3.getLast? with _ | ⟨b⟩
    · exact absurd (List.getLast?_eq_none_iff.mp hl) hp3n
    · rw [hl] at ha
      simp only [Option.or_some, Option.some.injEq] at ha
      subst ha
      exact isDig_not_ws ((List.all_eq_true.mp hp3) b (List.mem_of_mem_getLast? (hl ▸ rfl)))

theorem fmtYmd_canon {y m d : Nat} (hv : ValidYMD y m d) :
    fmtYmd (shYmd y m d) = some ⟨y, m, d⟩ := by
  obtain ⟨hy1, hy2, hm1, hm2, hd1, hd2⟩ := id hv
  have hsplit : splitOnC '-' (shYmd y m d) = [pad4 y, pad2 m, pad2 d] := by
    unfold shYmd
    rw [splitOnC_append (pad4_not_mem (by decide) y),
      splitOnC_append (pad2_not_mem (by decide) m),
      splitOnC_no_sep (pad2_not_mem (by decide) d)]
  unfold fmtYmd
  rw [hsplit]
  simp only [parse4_pad4 y (by omega), parse12_pad2 12 m hm1 hm2 (by omega),
    parse12_pad2 31 d hd1 (le_trans hd2 (daysInMonth_le y m)) (by
      have := daysInMonth_le y m; omega), Option.bind_eq_bind, Option.some_bind]
  rw [mkDate, if_pos hv]

theorem fmtDmy_canon {y m d : Nat} (hv : ValidYMD y m d) {sep : Char}
    (hsep : isDig sep = false) :
    fmtDmy sep (pad2 d ++ sep :: (pad2 m ++ sep :: pad4 y)) = some ⟨y, m, d⟩ := by
  obtain ⟨hy1, hy2, hm1, hm2, hd1, hd2⟩ := id hv
  have hsplit : splitOnC sep (pad2 d ++ sep :: (pad2 m ++ sep :: pad4 y)) =
      [pad2 d, pad2 m, pad4 y] := by
    rw [splitOnC_append (pad2_not_mem hsep d),
      splitOnC_append (pad2_not_mem hsep m),
      splitOnC_no_sep (pad4_not_mem hsep y)]
  unfold fmtDmy
  rw [hsplit]
  simp only [parse4_pad4 y (by omega), parse12_pad2 12 m hm1 hm2 (by omega),
    parse12_pad2 31 d hd1 (le_trans hd2 (daysInMonth_le y m)) (by
      have := daysInMonth_le y m; omega), Option.bind_eq_bind, Option.some_bind]
  rw [mkDate, if_pos hv]

theorem fmtYmd_single {t : List Char} (h : '-' ∉ t) : fmtYmd t = none := by
  unfold fmtYmd
  rw [splitOnC_no_sep h]

theorem fmtDmy_single {sep : Char} {t : List Char} (h : sep ∉ t) :
    fmtDmy sep t = none := by
  unfold fmtDmy
  rw [splitOnC_no_sep h]

theorem fmtYmd_on_dmy (y m d : Nat) : fmtYmd (shDmy y m d) = none := by
  have hsplit : splitOnC '-' (shDmy y m d) = [pad2 d, pad2 m, pad4 y] := by
    unfold shDmy
    rw [splitOnC_append (pad2_not_mem (by decide) d),
      splitOnC_append (pad2_not_mem (by decide) m),
      splitOnC_no_sep (pad4_not_mem (by decide) y)]
  unfold fmtYmd
  rw [hsplit]
  simp [parse4_pad2]

theorem fmtDnameY_canon {y m d : Nat} (hv : ValidYMD y m d)
    {names dispNames : List (List Char)}
    (hok : NameOk (dispNames.getD (m - 1) []))
    (hmatch : matchMonth names (dispNames.getD (m - 1) []) = some m) :
    fmtDnameY names (pad2 d ++ ' ' :: (dispNames.getD (m - 1) [] ++ ' ' :: pad4 y)) =
      some ⟨y, m, d⟩ := by
  obtain ⟨hy1, hy2, hm1, hm2, hd1, hd2⟩ := id hv
  obtain ⟨hnn, hnw, _, _⟩ := hok
  have htok : wsTokens (pad2 d ++ ' ' :: (dispNames.getD (m - 1) [] ++ ' ' :: pad4 y)) =
      [pad2 d, dispNames.getD (m - 1) [], pad4 y] :=
    wsTokens_three (all_isDig_not_ws (pad2_all_dig d)) hnw
      (all_isDig_not_ws (pad4_all_dig y)) (pad2_ne_nil d) hnn (pad4_ne_nil y)
  unfold fmtDnameY
  rw [htok]
  simp only [parse4_pad4 y (by omega), hmatch,
    parse12_pad2 31 d hd1 (le_trans hd2 (daysInMonth_le y m)) (by
      have := daysInMonth_le y m; omega), Option.bind_eq_bind, Option.some_bind]
  rw [mkDate, if_pos hv]

theorem fmtDnameY_no_match {d : Nat} (hd1 : 1 ≤ d) (hd31 : d ≤ 31)
    {names : List (List Char)} {nm : List Char} {ys : List Char}
    (hok : NameOk nm) (hys : ys.all isDig = true) (hysn : ys ≠ [])
    (hmatch : matchMonth names nm = none) :
    fmtDnameY names (pad2 d ++ ' ' :: (nm ++ ' ' :: ys)) = none := by
  obtain ⟨hnn, hnw, _, _⟩ := hok
  have htok : wsTokens (pad2 d ++ ' ' :: (nm ++ ' ' :: ys)) = [pad2 d, nm, ys] :=
    wsTokens_three (all_isDig_not_ws (pad2_all_dig d)) hnw
      (all_isDig_not_ws hys) (pad2_ne_nil d) hnn hysn
  unfold fmtDnameY
  rw [htok]
  simp [parse12_pad2 31 d hd1 hd31 (by omega), hmatch]

theorem firstSome_cons_some {t : List Char} {f : List Char → Option DateT}
    {fs : List (List Char → Option DateT)} {d : DateT} (h : f t = some d) :
    firstSome t (f :: fs) = some d := by
  rw [firstSome, h]

theorem firstSome_cons_none {t : List Char} {f : List Char → Option DateT}
    {fs : List (List Char → Option DateT)} (h : f t = none) :
    firstSome t (f :: fs) = firstSome t fs := by
  rw [firstSome, h]

theorem firstSome_none_iff {t : List Char} {fs : List (List Char → Option DateT)} :
    firstSome t fs = none ↔ ∀ f ∈ fs, f t = none := by
  induction fs with
  | nil => simp [firstSome]
  | cons f fs ih =>
    rcases h : f t with _ | ⟨d⟩
    · rw [firstSome_cons_none h]
      simp [ih, h]
    · rw [firstSome_cons_some h]
      simp only [List.mem_cons]
      constructor
      · intro hc
        cases hc
      · intro hall
        have := hall f (Or.inl rfl)
        rw [h] at this
        cases this

theorem threeParts_ne_nil {sep : Char} {p1 p2 p3 : List Char} :
    p1 ++ sep :: (p2 ++ sep :: p3) ≠ [] := by
  simp

theorem parse_date_eval {td s : List Char} (hstrip : pyStrip s = s) (hne : s ≠ []) :
    parse_date td s = (firstSome s dateFormats).map canonDate := by
  unfold parse_date
  rw [hstrip]
  exact if_neg hne

theorem dateFormats_eq : dateFormats =
    [fmtYmd, fmtDmy '-', fmtDmy '/', fmtDnameY monthAbbrevs, fmtDnameY monthFulls] := rfl

theorem parse_date_shYmd (td : List Char) {y m d : Nat} (hv : ValidYMD y m d) :
    parse_date td (shYmd y m d) = some (canonDate ⟨y, m, d⟩) := by
  have hstrip : pyStrip (shYmd y m d) = shYmd y m d := by
    unfold shYmd
    exact strip_sh_digits (by decide) (all_isDig_not_ws (pad4_all_dig y))
      (all_isDig_not_ws (pad2_all_dig m)) (all_isDig_not_ws (pad2_all_dig d))
  have hne : shYmd y m d ≠ [] := threeParts_ne_nil
  rw [parse_date_eval hstrip hne, dateFormats_eq,
    firstSome_cons_some (fmtYmd_canon hv)]
  rfl

theorem parse_date_shDmy (td : List Char) {y m d : Nat} (hv : ValidYMD y m d) :
    parse_date td (shDmy y m d) = some (canonDate ⟨y, m, d⟩) := by
  have hstrip : pyStrip (shDmy y m d) = shDmy y m d := by
    unfold shDmy
    exact strip_sh_digits (by decide) (all_isDig_not_ws (pad2_all_dig d))
      (all_isDig_not_ws (pad2_all_dig m)) (all_isDig_not_ws (pad4_all_dig y))
  have hne : shDmy y m d ≠ [] := threeParts_ne_nil
  rw [parse_date_eval hstrip hne, dateFormats_eq,
    firstSome_cons_none (fmtYmd_on_dmy y m d)]
  unfold shDmy
  rw [firstSome_cons_some (fmtDmy_canon hv (by decide))]
  rfl

theorem parse_date_shDmySlash (td : List Char) {y m d : Nat} (hv : ValidYMD y m d) :
    parse_date td (shDmySlash y m d) = some (canonDate ⟨y, m, d⟩) := by
  have hstrip : pyStrip (shDmySlash y m d) = shDmySlash y m d := by
    unfold shDmySlash
    exact strip_sh_digits (by decide) (all_isDig_not_ws (pad2_all_dig d))
      (all_isDig_not_ws (pad2_all_dig m)) (all_isDig_not_ws (pad4_all_dig y))
  have hne : shDmySlash y m d ≠ [] := threeParts_ne_nil
  have hnodash : '-' ∉ shDmySlash y m d := by
    unfold shDmySlash
    exact mem_threeParts (pad2_not_mem (by decide) d) (pad2_not_mem (by decide) m)
      (pad4_not_mem (by decide) y) (by decide)
  rw [parse_date_eval hstrip hne, dateFormats_eq,
    firstSome_cons_none (fmtYmd_single hnodash),
    firstSome_cons_none (fmtDmy_single hnodash)]
  unfold shDmySlash
  rw [firstSome_cons_some (fmtDmy_canon hv (by decide))]
  rfl

theorem parse_date_shDbY (td : List Char) {y m d : Nat} (hv : ValidYMD y m d) :
    parse_date td (shDbY y m d) = some (canonDate ⟨y, m, d⟩) := by
  have hm1 : 1 ≤ m := hv.2.2.1
  have hm13 : m < 13 := by have := hv.2.2.2.1; omega
  have hok := monthAbbrev_ok m hm13
  have hstrip : pyStrip (shDbY y m d) = shDbY y m d := by
    unfold shDbY
    exact strip_sh_name (pad2_all_dig d) (pad2_ne_nil d) (pad4_all_dig y) (pad4_ne_nil y)
  have hne : shDbY y m d ≠ [] := threeParts_ne_nil
  have hnodash : '-' ∉ shDbY y m d := by
    unfold shDbY
    exact mem_threeParts (pad2_not_mem (by decide) d) hok.2.2.1
      (pad4_not_mem (by decide) y) (by decide)
  have hnoslash : '/' ∉ shDbY y m d := by
    unfold shDbY
    exact mem_threeParts (pad2_not_mem (by decide) d) hok.2.2.2
      (pad4_not_mem (by decide) y) (by decide)
  rw [parse_date_eval hstrip hne, dateFormats_eq,
    firstSome_cons_none (fmtYmd_single hnodash),
    firstSome_cons_none (fmtDmy_single hnodash),
    firstSome_cons_none (fmtDmy_single hnoslash)]
  unfold shDbY
  rw [firstSome_cons_some (fmtDnameY_canon hv hok (monthAbbrev_match m hm13 hm1))]
  rfl

theorem parse_date_shDBY (td : List Char) {y m d : Nat} (hv : ValidYMD y m d) :
    parse_date td (shDBY y m d) = some (canonDate ⟨y, m, d⟩) := by
  by_cases hm5 : m = 5
  · subst hm5
    have hsh : shDBY y 5 d = shDbY y 5 d := by
      unfold shDBY shDbY
      rw [monthFull_five]
    rw [hsh]
    exact parse_date_shDbY td hv
  · have hm1 : 1 ≤ m := hv.2.2.1
    have hm13 : m < 13 := by have := hv.2.2.2.1; omega
    have hd1 : 1 ≤ d := hv.2.2.2.2.1
    have hd31 : d ≤ 31 := le_trans hv.2.2.2.2.2 (daysInMonth_le y m)
    have hok := monthFull_ok m hm13
    have hstrip : pyStrip (shDBY y m d) = shDBY y m d := by
      unfold shDBY
      exact strip_sh_name (pad2_all_dig d) (pad2_ne_nil d) (pad4_all_dig y) (pad4_ne_nil y)
    have hne : shDBY y m d ≠ [] := threeParts_ne_nil
    have hnodash : '-' ∉ shDBY y m d := by
      unfold shDBY
      exact mem_threeParts (pad2_not_mem (by decide) d) hok.2.2.1
        (pad4_not_mem (by decide) y) (by decide)
    have hnoslash : '/' ∉ shDBY y m d := by
      unfold shDBY
      exact mem_threeParts (pad2_not_mem (by decide) d) hok.2.2.2
        (pad4_not_mem (by decide) y) (by decide)
    rw [parse_date_eval hstrip hne, dateFormats_eq,
      firstSome_cons_none (fmtYmd_single hnodash),
      firstSome_cons_none (fmtDmy_single hnodash),
      firstSome_cons_none (fmtDmy_single hnoslash)]
    unfold shDBY
    rw [firstSome_cons_none
      (fmtDnameY_no_match hd1 hd31 hok (pad4_all_dig y) (pad4_ne_nil y)
        (monthFull_not_abbrev m hm13 hm1 hm5)),
      firstSome_cons_some (fmtDnameY_canon hv hok (monthFull_match m hm13 hm1))]
    rfl

/-! ## Helper lemmas: selection and deletion -/

theorem isDig_and {c : Char} (h : isDig c = true) : 48 ≤ c.toNat ∧ c.toNat ≤ 57 := by
  simpa [isDig] using h

theorem lowChar_digit {c : Char} (h : isDig c = true) : lowChar c = c := by
  have h' := isDig_and h
  rw [lowChar, if_neg (by omega)]

/-- A numeric selection can never be the cancel sentinel `"q"`. -/
theorem pyInt_not_q {t : List Char} {n : Int} (h : pyInt t = some n) :
    lowerStr t ≠ "q".toList := by
  intro hl
  cases t with
  | nil => simp [lowerStr] at hl
  | cons c cs =>
    have hcs : cs = [] ∧ lowChar c = 'q' := by
      have : lowChar c :: lowerStr cs = ['q'] := by simpa [lowerStr] using hl
      constructor
      · have := congrArg List.tail this
        simpa [lowerStr] using this
      · exact (List.cons_eq_cons.mp this).1
    obtain ⟨rfl, hq⟩ := hcs
    by_cases hminus : c = '-'
    · subst hminus
      simp [pyInt, pyIntCore] at h
    · by_cases hplus : c = '+'
      · subst hplus
        simp [pyInt, pyIntCore] at h
      · rw [pyInt, if_neg hminus, if_neg hplus] at h
        rw [pyIntCore] at h
        by_cases hd : isDig c = true
        · rw [lowChar_digit hd] at hq
          subst hq
          simp [isDig] at hd
        · rw [if_neg hd] at h
          simp at h

theorem pyIndex_valid {l : List Expense} {k : Nat} (hk1 : 1 ≤ k) :
    pyIndex l ((k : Int) - 1) = l.get? (k - 1) := by
  unfold pyIndex
  rw [if_pos (by omega)]
  congr 1
  omega

theorem displayed_length (es : List Expense) : (displayed es).length = es.length :=
  (List.perm_insertionSort dateDescRel es).length_eq

theorem mem_displayed {es : List Expense} {x : Expense} (h : x ∈ displayed es) :
    x ∈ es :=
  (List.perm_insertionSort dateDescRel es).mem_iff.mp h

/-- `removeFirst` removes exactly the first structurally equal element and
saves. -/
theorem removeFirst_spec {item : Expense} {es : List Expense} (h : item ∈ es) :
    ∃ i, idxOfFirst item es = some i ∧ i < es.length ∧
      es.get? i = some item ∧ (∀ j < i, es.get? j ≠ some item) ∧
      removeFirst item es = ⟨es.eraseIdx i, true⟩ := by
  induction es with
  | nil => cases h
  | cons e t ih =>
    by_cases he : e = item
    · refine ⟨0, ?_, ?_, ?_, ?_, ?_⟩
      · rw [idxOfFirst, if_pos he]
      · simp
      · simpa using he
      · intro j hj
        omega
      · rw [removeFirst, if_pos he]
        rfl
    · have hmem : item ∈ t := by
        rcases List.mem_cons.mp h with h' | h'
        · exact absurd h'.symm he
        · exact h'
      obtain ⟨i, hidx, hlt, hget, hfirst, hrem⟩ := ih hmem
      refine ⟨i + 1, ?_, ?_, ?_, ?_, ?_⟩
      · rw [idxOfFirst, if_neg he, hidx]
        rfl
      · simpa using Nat.succ_lt_succ hlt
      · simpa using hget
      · intro j hj
        cases j with
        | zero =>
          simp only [List.get?_cons_zero, ne_eq, Option.some.injEq]
          exact he
        | succ j' =>
          simp only [List.get?_cons_succ]
          exact hfirst j' (by omega)
      · rw [removeFirst, if_neg he, hrem]
        rfl

/-! ## Helper lemmas: grouped sums -/

/-- Sum of the amounts of the records with key `k`. -/
def sumAmt (key : Expense → List Char) (k : List Char) (es : List Expense) : ℚ :=
  ((es.filter (fun e => key e = k)).map (fun e => e.amount)).sum

theorem sumAmt_nil (key : Expense → List Char) (k : List Char) :
    sumAmt key k [] = 0 := rfl

theorem sumAmt_cons (key : Expense → List Char) (k : List Char) (e : Expense)
    (t : List Expense) :
    sumAmt key k (e :: t) =
      if key e = k then e.amount + sumAmt key k t else sumAmt key k t := by
  unfold sumAmt
  by_cases h : key e = k
  · simp [List.filter_cons, h]
  · simp [List.filter_cons, h]

theorem sumAmt_eq_zero {key : Expense → List Char} {k : List Char}
    {es : List Expense} (h : es.any (fun e => key e = k) = false) :
    sumAmt key k es = 0 := by
  induction es with
  | nil => rfl
  | cons e t ih =>
    simp only [List.any_cons, Bool.or_eq_false_iff] at h
    rw [sumAmt_cons, if_neg (by simpa using h.1), ih h.2]

theorem lookupB_upsert (x k : List Char) (v : ℚ) (acc : List (List Char × ℚ)) :
    lookupB x (upsert k v acc) =
      if k = x then some ((lookupB x acc).getD 0 + v) else lookupB x acc := by
  induction acc with
  | nil =>
    by_cases h : k = x <;> simp [upsert, lookupB, h, zero_add]
  | cons p t ih =>
    obtain ⟨k', v'⟩ := p
    by_cases hk : k' = k
    · subst hk
      by_cases hx : k' = x
      · subst hx
        simp [upsert, lookupB]
      · simp [upsert, lookupB, hx]
    · by_cases hx : k' = x
      · subst hx
        have hkx : k ≠ k' := fun h => hk h.symm
        simp [upsert, lookupB, hk, hkx, ih]
      · simp [upsert, lookupB, hk, hx, ih]

theorem mem_keys_upsert {x k : List Char} {v : ℚ} {acc : List (List Char × ℚ)} :
    x ∈ (upsert k v acc).map Prod.fst ↔ x = k ∨ x ∈ acc.map Prod.fst := by
  induction acc with
  | nil => simp [upsert, eq_comm]
  | cons p t ih =>
    obtain ⟨k', v'⟩ := p
    by_cases hk : k' = k
    · subst hk
      simp only [upsert, List.map_cons, List.mem_cons, if_pos]
      simp
    · simp only [upsert, if_neg hk, List.map_cons, List.mem_cons, ih]
      tauto

theorem nodup_keys_upsert {k : List Char} {v : ℚ} {acc : List (List Char × ℚ)}
    (h : (acc.map Prod.fst).Nodup) : ((upsert k v acc).map Prod.fst).Nodup := by
  induction acc with
  | nil => simp [upsert]
  | cons p t ih =>
    obtain ⟨k', v'⟩ := p
    simp only [List.map_cons, List.nodup_cons] at h
    by_cases hk : k' = k
    · subst hk
      simpa [upsert, List.nodup_cons] using h
    · simp only [upsert, if_neg hk, List.map_cons, List.nodup_cons]
      refine ⟨?_, ih h.2⟩
      rw [mem_keys_upsert]
      push_neg
      exact ⟨hk, h.1⟩

theorem mem_iff_lookupB {x : List Char} {q : ℚ} {acc : List (List Char × ℚ)}
    (h : (acc.map Prod.fst).Nodup) : (x, q) ∈ acc ↔ lookupB x acc = some q := by
  induction acc with
  | nil => simp [lookupB]
  | cons p t ih =>
    obtain ⟨k', v'⟩ := p
    simp only [List.map_cons, List.nodup_cons] at h
    by_cases hx : k' = x
    · subst hx
      have hnotin : (k', q) ∈ t → False := fun hc => h.1 (List.mem_map_of_mem Prod.fst hc)
      simp only [lookupB, List.mem_cons, Prod.mk.injEq, true_and, if_true,
        Option.some.injEq]
      constructor
      · intro hc
        rcases hc with hq | hc
        · rw [hq]
        · exact absurd hc hnotin
      · intro hq
        exact Or.inl hq.symm
    · simp only [lookupB, if_neg hx, List.mem_cons]
      rw [← ih h.2]
      constructor
      · intro hc
        rcases hc with hc | hc
        · cases hc
          exact absurd rfl hx
        · exact hc
      · exact Or.inr

theorem lookupB_accum_from (key : Expense → List Char) (x : List Char) :
    ∀ (es : List Expense) (acc : List (List Char × ℚ)),
      lookupB x (es.foldl (fun a e => upsert (key e) e.amount a) acc) =
        if es.any (fun e => key e = x) then
          some ((lookupB x acc).getD 0 + sumAmt key x es)
        else lookupB x acc := by
  intro es
  induction es with
  | nil =>
    intro acc
    simp [sumAmt_nil]
  | cons e t ih =>
    intro acc
    rw [List.foldl_cons, ih (upsert (key e) e.amount acc), lookupB_upsert]
    by_cases hk : key e = x
    · rw [if_pos hk]
      by_cases ht : t.any (fun e => key e = x) = true
      · rw [if_pos ht, if_pos (by simp [hk]),
          sumAmt_cons, if_pos hk]
        simp only [Option.getD_some]
        rw [add_assoc]
      · rw [if_neg ht, if_pos (by simp [hk]), sumAmt_cons, if_pos hk,
          sumAmt_eq_zero (by simpa using ht)]
        simp
    · rw [if_neg hk]
      by_cases ht : t.any (fun e => key e = x) = true
      · rw [if_pos ht, if_pos (by simp [List.any_cons, ht]),
          sumAmt_cons, if_neg hk]
      · have hnone : ((e :: t).any fun e => decide (key e = x)) = false := by
          simp only [List.any_cons, Bool.or_eq_false_iff]
          exact ⟨by simpa using hk, by simpa using ht⟩
        rw [if_neg ht, if_neg (by simp [hnone])]

theorem lookupB_accumBy (key : Expense → List Char) (x : List Char)
    (es : List Expense) :
    lookupB x (accumBy key es) =
      if es.any (fun e => key e = x) then some (sumAmt key x es) else none := by
  unfold accumBy
  rw [lookupB_accum_from]
  by_cases h : es.any (fun e => key e = x) = true
  · rw [if_pos h, if_pos h]
    rw [show lookupB x ([] : List (List Char × ℚ)) = none from rfl]
    simp
  · rw [if_neg h, if_neg h]
    rfl

theorem nodup_keys_accum_from (key : Expense → List Char) :
    ∀ (es : List Expense) (acc : List (List Char × ℚ)),
      (acc.map Prod.fst).Nodup →
      ((es.foldl (fun a e => upsert (key e) e.amount a) acc).map Prod.fst).Nodup := by
  intro es
  induction es with
  | nil => intro acc h; exact h
  | cons e t ih =>
    intro acc h
    rw [List.foldl_cons]
    exact ih _ (nodup_keys_upsert h)

theorem nodup_keys_accumBy (key : Expense → List Char) (es : List Expense) :
    ((accumBy key es).map Prod.fst).Nodup :=
  nodup_keys_accum_from key es [] (by simp)

theorem mem_accumBy_iff (key : Expense → List Char) (x : List Char) (q : ℚ)
    (es : List Expense) :
    (x, q) ∈ accumBy key es ↔
      es.any (fun e => key e = x) = true ∧ q = sumAmt key x es := by
  rw [mem_iff_lookupB (nodup_keys_accumBy key es), lookupB_accumBy]
  by_cases h : es.any (fun e => key e = x) = true
  · rw [if_pos h]
    simp only [Option.some.injEq]
    constructor
    · intro hq
      exact ⟨h, hq.symm⟩
    · intro hq
      exact hq.2.symm
  · rw [if_neg h]
    simp [h]

theorem mem_byCat_iff (c : List Char) (q : ℚ) (es : List Expense) :
    (c, q) ∈ byCat es ↔
      es.any (fun e => e.category = c) = true ∧
        q = sumAmt (fun e => e.category) c es := by
  rw [← mem_accumBy_iff]
  exact (List.perm_insertionSort catRel _).mem_iff

theorem mem_byMonth_iff (mo : List Char) (q : ℚ) (es : List Expense) :
    (mo, q) ∈ byMonth es ↔
      es.any (fun e => monthOf e = mo) = true ∧ q = sumAmt monthOf mo es := by
  rw [← mem_accumBy_iff]
  exact (List.perm_insertionSort monRel _).mem_iff

/-! ## Helper lemmas: amounts and the store -/

theorem ws_not_amt {c : Char} (h : isPyWs c = true) : isAmtChar c = false := by
  cases ha : isAmtChar c with
  | false => rfl
  | true => rw [amtChar_not_ws ha] at h; cases h

/-- `sanitize_amount` in closed form: stripping whitespace cannot change the
kept characters. -/
theorem sanitize_amount_eq (s : List Char) :
    sanitize_amount s =
      if s.filter isAmtChar = [] then none else pyFloat (s.filter isAmtChar) := by
  show (if (pyStrip s).filter isAmtChar = [] then none
    else pyFloat ((pyStrip s).filter isAmtChar)) = _
  rw [filter_pyStrip s (fun c hc => ws_not_amt hc)]

theorem any_amt_iff_filter {s : List Char} :
    s.any isAmtChar = true ↔ s.filter isAmtChar ≠ [] := by
  rw [ne_eq, List.filter_eq_nil_iff]
  simp

theorem decode_toJVal (e : Expense) : decodeExpense (toJVal e) = some e := rfl

theorem wellFormed_toJVal (e : Expense) : wellFormedRec (toJVal e) = true := rfl

theorem load_save (es : List Expense) (now : Timestamp) (renameOk : Bool) :
    load_expenses (save_expenses es) now renameOk = ⟨es.map toJVal, false, none, false⟩ :=
  rfl

theorem fmtTS_digits (now : Timestamp) :
    (fmtTS now).length = 14 ∧ (fmtTS now).all isDig = true := by
  constructor
  · simp [fmtTS, pad4, pad2]
  · simp only [fmtTS, List.all_append]
    simp [pad4_all_dig, pad2_all_dig]

/-- Evaluation of `delete_expense` once a valid selection is resolved. -/
theorem delete_eval {es : List Expense} {choice : List Char} (confirm : List Char)
    {k : Int} {item : Expense} (hne : es ≠ [])
    (hchoice : pyInt (pyStrip choice) = some k)
    (hidx : pyIndex (displayed es) (k - 1) = some item) :
    delete_expense es choice confirm =
      if lowerStr (pyStrip confirm) = "y".toList then removeFirst item es
      else ⟨es, false⟩ := by
  simp only [delete_expense, if_neg hne, if_neg (pyInt_not_q hchoice), hchoice, hidx]

/-- Evaluation of `edit_expense` once a valid selection is resolved. -/
theorem edit_eval {es : List Expense} {choice amtIn catIn dateIn today : List Char}
    {k : Int} {item : Expense} {i : Nat} (hne : es ≠ [])
    (hchoice : pyInt (pyStrip choice) = some k)
    (hidx : pyIndex (displayed es) (k - 1) = some item)
    (hfirst : idxOfFirst item es = some i) (hget : es.get? i = some item) :
    edit_expense es choice amtIn catIn dateIn today =
      ⟨es.set i (updateRec item amtIn catIn dateIn today), true⟩ := by
  simp only [edit_expense, if_neg hne, if_neg (pyInt_not_q hchoice), hchoice, hidx,
    hfirst, hget]

/-- Python raises `IndexError` exactly outside `[-len, len-1]`. -/
theorem pyIndex_out {l : List Expense} {n : Int}
    (h : (l.length : Int) < n ∨ n ≤ -(l.length : Int)) : pyIndex l (n - 1) = none := by
  unfold pyIndex
  rcases h with h | h
  · rw [if_pos (by omega)]
    rw [List.get?_eq_none]
    omega
  · rw [if_neg (by omega), if_pos (by omega)]

/-! ## The claims -/

/-- C1: `load_expenses` never raises or propagates an error, whatever the
state of the backing file: an absent file yields the empty list; content
that fails to decode yields a warning, a best-effort rename to
`<original-name>.backup.<YYYYMMDDHHMMSS>` (a failed rename is swallowed)
and the empty list; content that decodes to a non-list yields a warning,
the empty list and no backup; any other read failure is reported and yields
the empty list.  The backup suffix is always a 14-digit timestamp. -/
theorem C1_load_resilient (now : Timestamp) (renameOk : Bool) :
    (load_expenses .absent now renameOk = ⟨[], false, none, false⟩) ∧
    (∀ l, load_expenses (.content (some (.jarr l))) now renameOk =
      ⟨l, false, none, false⟩) ∧
    (∀ v, (∀ l, v ≠ .jarr l) →
      load_expenses (.content (some v)) now renameOk = ⟨[], true, none, false⟩) ∧
    (load_expenses (.content none) now renameOk =
      ⟨[], true, if renameOk then some (backupName now) else none, false⟩) ∧
    (load_expenses .unreadable now renameOk = ⟨[], false, none, true⟩) ∧
    (backupName now = FILE_NAME ++ ".backup.".toList ++ fmtTS now) ∧
    ((fmtTS now).length = 14 ∧ (fmtTS now).all isDig = true) := by
  refine ⟨rfl, fun l => rfl, ?_, rfl, rfl, rfl, fmtTS_digits now⟩
  intro v hv
  cases v with
  | jarr l => exact absurd rfl (hv l)
  | jnum q => rfl
  | jstr s => rfl
  | jbool b => rfl
  | jnull => rfl
  | jobj fields => rfl

theorem C1_load_resilient_witness :
    load_expenses (.content (some (.jnum 1))) ⟨2024, 1, 5, 12, 30, 59⟩ true =
      ⟨[], true, none, false⟩ ∧
    load_expenses (.content none) ⟨2024, 1, 5, 12, 30, 59⟩ true =
      ⟨[], true, some ("expenses.json.backup.20240105123059".toList), false⟩ :=
  ⟨(C1_load_resilient ⟨2024, 1, 5, 12, 30, 59⟩ true).2.2.1 (.jnum 1)
      (fun l h => nomatch h),
    by
      have h := (C1_load_resilient ⟨2024, 1, 5, 12, 30, 59⟩ true).2.2.2.1
      rw [h]
      simp only [if_true]
      congr 1⟩

/-- C2 counterexample: `"-"` contains a character of the class `[0-9.\-]`,
yet `sanitize_amount` fails (`float("-")` raises) instead of returning a
number, so the claim's success half is false as stated. -/
theorem C2_counterexample :
    ("-".toList.any isAmtChar = true) ∧ sanitize_amount "-".toList = none := by
  constructor
  · decide
  · decide

/-- C2 (amended): for every input with at least one character of the class
`[0-9.\-]`, `sanitize_amount` returns exactly the result of `float()` on
the input with all other characters stripped — the parsed number when that
cleaned string is a valid numeral, failure otherwise; for every input with
no such character it fails. -/
theorem C2_sanitize (s : List Char) :
    (s.any isAmtChar = true → sanitize_amount s = pyFloat (s.filter isAmtChar)) ∧
    (s.any isAmtChar = false → sanitize_amount s = none) := by
  constructor
  · intro h
    rw [sanitize_amount_eq, if_neg (any_amt_iff_filter.mp h)]
  · intro h
    rw [sanitize_amount_eq, if_pos ?_]
    rw [List.filter_eq_nil_iff]
    intro a ha
    simp only [List.any_eq_false] at h
    exact h a ha

theorem C2_sanitize_witness :
    ("₹1,250.50".toList.any isAmtChar = true) ∧
    sanitize_amount "₹1,250.50".toList = pyFloat ("₹1,250.50".toList.filter isAmtChar) ∧
    sanitize_amount "₹1,250.50".toList = some ((1250.5 : ℚ)) := by
  refine ⟨by decide, (C2_sanitize "₹1,250.50".toList).1 (by decide), ?_⟩
  rw [(C2_sanitize "₹1,250.50".toList).1 (by decide)]
  have hf : "₹1,250.50".toList.filter isAmtChar = "1250.50".toList := by decide
  rw [hf]
  show some ((decNat "1250".toList : ℚ) + fracVal "50".toList) = some ((1250.5 : ℚ))
  have h3 : decNat "1250".toList = 1250 := by decide
  have h4 : decNat "50".toList = 50 := by decide
  have h5 : ("50".toList).length = 2 := by decide
  unfold fracVal
  rw [h3, h4, h5]
  norm_num

/-- C3: for a non-empty trimmed input `parse_date` is exactly the ordered
first-success trial of the five formats, reformatted canonically, and fails
precisely when all five formats fail; consequently the five supported input
shapes for any one calendar day all yield the identical canonical string
`YYYY-MM-DD`. -/
theorem C3_parse_date (td : List Char) (y m d : Nat) (hv : ValidYMD y m d)
    (s : List Char) :
    (parse_date td (shYmd y m d) = some (canonDate ⟨y, m, d⟩)) ∧
    (parse_date td (shDmy y m d) = some (canonDate ⟨y, m, d⟩)) ∧
    (parse_date td (shDmySlash y m d) = some (canonDate ⟨y, m, d⟩)) ∧
    (parse_date td (shDbY y m d) = some (canonDate ⟨y, m, d⟩)) ∧
    (parse_date td (shDBY y m d) = some (canonDate ⟨y, m, d⟩)) ∧
    (pyStrip s ≠ [] →
      parse_date td s = (firstSome (pyStrip s) dateFormats).map canonDate ∧
      (parse_date td s = none ↔ ∀ f ∈ dateFormats, f (pyStrip s) = none)) := by
  refine ⟨parse_date_shYmd td hv, parse_date_shDmy td hv, parse_date_shDmySlash td hv,
    parse_date_shDbY td hv, parse_date_shDBY td hv, fun hs => ⟨?_, ?_⟩⟩
  · unfold parse_date
    exact if_neg hs
  · unfold parse_date
    rw [if_neg hs]
    rw [Option.map_eq_none']
    exact firstSome_none_iff

theorem C3_parse_date_witness :
    parse_date [] (shYmd 2024 1 5) = some (canonDate ⟨2024, 1, 5⟩) ∧
    parse_date [] (shDmy 2024 1 5) = some (canonDate ⟨2024, 1, 5⟩) ∧
    parse_date [] (shDmySlash 2024 1 5) = some (canonDate ⟨2024, 1, 5⟩) ∧
    parse_date [] (shDbY 2024 1 5) = some (canonDate ⟨2024, 1, 5⟩) ∧
    parse_date [] (shDBY 2024 1 5) = some (canonDate ⟨2024, 1, 5⟩) ∧
    canonDate ⟨2024, 1, 5⟩ = "2024-01-05".toList ∧
    shDBY 2024 1 5 = "05 January 2024".toList := by
  have h := C3_parse_date [] 2024 1 5 (by decide) "x".toList
  exact ⟨h.1, h.2.1, h.2.2.1, h.2.2.2.1, h.2.2.2.2.1, by decide, by decide⟩

/-- C4: round-trip: saving a valid non-empty record sequence and loading
the resulting file back reconstructs the sequence field-for-field: the
loaded JSON values are exactly the serialized records, every one of which
decodes back to its original record, with no warning and no backup. -/
theorem C4_round_trip (es : List Expense) (hne : es ≠ []) (now : Timestamp)
    (renameOk : Bool) :
    (load_expenses (save_expenses es) now renameOk).expenses = es.map toJVal ∧
    (load_expenses (save_expenses es) now renameOk).warned = false ∧
    (load_expenses (save_expenses es) now renameOk).backup = none ∧
    (load_expenses (save_expenses es) now renameOk).expenses.map decodeExpense =
      es.map some := by
  rw [load_save]
  refine ⟨rfl, rfl, rfl, ?_⟩
  rw [List.map_map]
  rfl

theorem C4_round_trip_witness :
    ([⟨10, "Food".toList, "2024-01-05".toList⟩] : List Expense) ≠ [] ∧
    (load_expenses (save_expenses [⟨10, "Food".toList, "2024-01-05".toList⟩])
        ⟨2024, 1, 5, 0, 0, 0⟩ true).expenses =
      [⟨10, "Food".toList, "2024-01-05".toList⟩].map toJVal ∧
    (load_expenses (save_expenses [⟨10, "Food".toList, "2024-01-05".toList⟩])
        ⟨2024, 1, 5, 0, 0, 0⟩ true).expenses.map decodeExpense =
      [some ⟨10, "Food".toList, "2024-01-05".toList⟩] :=
  ⟨by simp,
    (C4_round_trip [⟨10, "Food".toList, "2024-01-05".toList⟩] (by simp)
      ⟨2024, 1, 5, 0, 0, 0⟩ true).1,
    (C4_round_trip [⟨10, "Food".toList, "2024-01-05".toList⟩] (by simp)
      ⟨2024, 1, 5, 0, 0, 0⟩ true).2.2.2⟩

/-- C5: for a valid 1-based position in the date-descending display, delete
proceeds only on an affirmative `"y"` confirmation (stripped and
lower-cased, as the code normalises it) — anything else leaves the list
untouched and unsaved; on confirmation it removes exactly the first element
of the storage list structurally equal to the selected displayed record,
the length drops by one, and the result is saved. -/
theorem C5_delete (es : List Expense) (choice confirm : List Char) (k : Nat)
    (hk1 : 1 ≤ k) (hk2 : k ≤ es.length)
    (hchoice : pyInt (pyStrip choice) = some (k : Int)) :
    ∃ item, (displayed es).get? (k - 1) = some item ∧
      (lowerStr (pyStrip confirm) ≠ "y".toList →
        delete_expense es choice confirm = ⟨es, false⟩) ∧
      (lowerStr (pyStrip confirm) = "y".toList →
        ∃ i, idxOfFirst item es = some i ∧ i < es.length ∧
          es.get? i = some item ∧ (∀ j, j < i → es.get? j ≠ some item) ∧
          delete_expense es choice confirm = ⟨es.eraseIdx i, true⟩ ∧
          (es.eraseIdx i).length + 1 = es.length) := by
  have hne : es ≠ [] := by
    intro h
    rw [h] at hk2
    simp at hk2
    omega
  have hlen : k - 1 < (displayed es).length := by
    rw [displayed_length]
    omega
  have hitem : (displayed es).get? (k - 1) = some ((displayed es).get ⟨k - 1, hlen⟩) :=
    List.get?_eq_get hlen
  set item := (displayed es).get ⟨k - 1, hlen⟩ with hitemdef
  have hmem : item ∈ es := mem_displayed (List.get_mem _ _ _)
  have hidx : pyIndex (displayed es) ((k : Int) - 1) = some item := by
    rw [pyIndex_valid hk1, hitem]
  have heval := delete_eval confirm hne hchoice hidx
  obtain ⟨i, hfirst, hlt, hget, hbefore, hrem⟩ := removeFirst_spec hmem
  refine ⟨item, hitem, ?_, ?_⟩
  · intro hcon
    rw [heval, if_neg hcon]
  · intro hcon
    refine ⟨i, hfirst, hlt, hget, hbefore, ?_, List.length_eraseIdx_add_one hlt⟩
    rw [heval, if_pos hcon, hrem]

theorem C5_delete_witness :
    delete_expense
      [⟨10, "A".toList, "2024-01-02".toList⟩, ⟨5, "B".toList, "2024-01-01".toList⟩]
      "1".toList "Y".toList =
      ⟨[⟨5, "B".toList, "2024-01-01".toList⟩], true⟩ := by
  obtain ⟨item, hitem, hno, hyes⟩ :=
    C5_delete
      [⟨10, "A".toList, "2024-01-02".toList⟩, ⟨5, "B".toList, "2024-01-01".toList⟩]
      "1".toList "Y".toList 1 (by decide) (by decide) (by decide)
  obtain ⟨i, hfirst, hlt, hget, hbefore, hdel, hlen⟩ := hyes (by decide)
  have hitem' : item = ⟨10, "A".toList, "2024-01-02".toList⟩ := by
    have h0 : (displayed
        [⟨10, "A".toList, "2024-01-02".toList⟩, ⟨5, "B".toList, "2024-01-01".toList⟩]).get?
        (1 - 1) = some ⟨10, "A".toList, "2024-01-02".toList⟩ := by decide
    rw [h0] at hitem
    exact (Option.some_inj.mp hitem).symm
  subst hitem'
  have hi : i = 0 := by
    have h1 : idxOfFirst ⟨10, "A".toList, "2024-01-02".toList⟩
        [⟨10, "A".toList, "2024-01-02".toList⟩, ⟨5, "B".toList, "2024-01-01".toList⟩] =
        some 0 := by decide
    rw [h1] at hfirst
    exact (Option.some_inj.mp hfirst).symm
  subst hi
  simpa using hdel

/-- C6: for a valid selection, edit updates the three fields independently
— blank input keeps the old value, non-blank unparsable input keeps the old
value without aborting the edit, non-blank parsable input replaces it (the
category is title-cased) — and the list is saved regardless of whether
anything changed. -/
theorem C6_edit (es : List Expense) (choice amtIn catIn dateIn today : List Char)
    (k : Nat) (hk1 : 1 ≤ k) (hk2 : k ≤ es.length)
    (hchoice : pyInt (pyStrip choice) = some (k : Int)) :
    ∃ item i, (displayed es).get? (k - 1) = some item ∧
      idxOfFirst item es = some i ∧ es.get? i = some item ∧
      edit_expense es choice amtIn catIn dateIn today =
        ⟨es.set i (updateRec item amtIn catIn dateIn today), true⟩ ∧
      (pyStrip amtIn = [] →
        (updateRec item amtIn catIn dateIn today).amount = item.amount) ∧
      (pyStrip amtIn ≠ [] → sanitize_amount amtIn = none →
        (updateRec item amtIn catIn dateIn today).amount = item.amount) ∧
      (∀ q, pyStrip amtIn ≠ [] → sanitize_amount amtIn = some q →
        (updateRec item amtIn catIn dateIn today).amount = q) ∧
      (pyStrip catIn = [] →
        (updateRec item amtIn catIn dateIn today).category = item.category) ∧
      (pyStrip catIn ≠ [] →
        (updateRec item amtIn catIn dateIn today).category = titleStr (pyStrip catIn)) ∧
      (pyStrip dateIn = [] →
        (updateRec item amtIn catIn dateIn today).date = item.date) ∧
      (pyStrip dateIn ≠ [] → parse_date today (pyStrip dateIn) = none →
        (updateRec item amtIn catIn dateIn today).date = item.date) ∧
      (∀ ds, pyStrip dateIn ≠ [] → parse_date today (pyStrip dateIn) = some ds →
        (updateRec item amtIn catIn dateIn today).date = ds) := by
  have hne : es ≠ [] := by
    intro h
    rw [h] at hk2
    simp at hk2
    omega
  have hlen : k - 1 < (displayed es).length := by
    rw [displayed_length]
    omega
  have hitem : (displayed es).get? (k - 1) = some ((displayed es).get ⟨k - 1, hlen⟩) :=
    List.get?_eq_get hlen
  set item := (displayed es).get ⟨k - 1, hlen⟩ with hitemdef
  have hmem : item ∈ es := mem_displayed (List.get_mem _ _ _)
  have hidx : pyIndex (displayed es) ((k : Int) - 1) = some item := by
    rw [pyIndex_valid hk1, hitem]
  obtain ⟨i, hfirst, hlt, hget, hbefore, hrem⟩ := removeFirst_spec hmem
  refine ⟨item, i, hitem, hfirst, hget,
    edit_eval hne hchoice hidx hfirst hget, ?_, ?_, ?_, ?_, ?_, ?_, ?_, ?_⟩
  · intro h
    simp [updateRec, h]
  · intro h h2
    simp [updateRec, if_neg h, h2]
  · intro q h h2
    simp [updateRec, if_neg h, h2]
  · intro h
    simp [updateRec, h]
  · intro h
    simp [updateRec, if_neg h]
  · intro h
    simp [updateRec, h]
  · intro h h2
    simp [updateRec, if_neg h, h2]
  · intro ds h h2
    simp [updateRec, if_neg h, h2]

theorem C6_edit_witness :
    edit_expense
      [⟨10, "A".toList, "2024-01-02".toList⟩, ⟨5, "B".toList, "2024-01-01".toList⟩]
      "2".toList "xx".toList "new cat".toList "".toList "".toList =
      ⟨[⟨10, "A".toList, "2024-01-02".toList⟩,
        ⟨5, "New Cat".toList, "2024-01-01".toList⟩], true⟩ := by
  obtain ⟨item, i, hitem, hfirst, hget, hedit, hrest⟩ :=
    C6_edit
      [⟨10, "A".toList, "2024-01-02".toList⟩, ⟨5, "B".toList, "2024-01-01".toList⟩]
      "2".toList "xx".toList "new cat".toList "".toList "".toList 2
      (by decide) (by decide) (by decide)
  have hitem' : item = ⟨5, "B".toList, "2024-01-01".toList⟩ := by
    have h0 : (displayed
        [⟨10, "A".toList, "2024-01-02".toList⟩, ⟨5, "B".toList, "2024-01-01".toList⟩]).get?
        (2 - 1) = some ⟨5, "B".toList, "2024-01-01".toList⟩ := by decide
    rw [h0] at hitem
    exact (Option.some_inj.mp hitem).symm
  subst hitem'
  have hi : i = 1 := by
    have h1 : idxOfFirst ⟨5, "B".toList, "2024-01-01".toList⟩
        [⟨10, "A".toList, "2024-01-02".toList⟩, ⟨5, "B".toList, "2024-01-01".toList⟩] =
        some 1 := by decide
    rw [h1] at hfirst
    exact (Option.some_inj.mp hfirst).symm
  subst hi
  rw [hedit]
  decide

/-- C7 counterexample: the selection `"0"` is outside the valid 1-based
display range `1..n`, yet the operation does not abort: Python resolves
index `0-1 = -1` by wrap-around to the last displayed record, which is
deleted and the file saved. -/
theorem C7_counterexample :
    pyInt (pyStrip "0".toList) = some 0 ∧
    delete_expense
      [⟨10, "A".toList, "2024-01-02".toList⟩, ⟨5, "B".toList, "2024-01-01".toList⟩]
      "0".toList "y".toList =
      ⟨[⟨10, "A".toList, "2024-01-02".toList⟩], true⟩ := by
  constructor
  · decide
  · decide

/-- C7 (amended): a selection that is non-numeric (including the cancel
sentinel) or whose number `n` lies outside Python's index range — `n` above
the list length or `n ≤ -length` — makes edit and delete abort with no
mutation and no save; positions `-length < n ≤ 0` are instead resolved by
Python's wrap-around indexing and are not rejected. -/
theorem C7_invalid_selection (es : List Expense)
    (choice confirm amtIn catIn dateIn today : List Char)
    (h : pyInt (pyStrip choice) = none ∨
      ∃ n : Int, pyInt (pyStrip choice) = some n ∧
        ((es.length : Int) < n ∨ n ≤ -(es.length : Int))) :
    delete_expense es choice confirm = ⟨es, false⟩ ∧
    edit_expense es choice amtIn catIn dateIn today = ⟨es, false⟩ := by
  by_cases hne : es = []
  · subst hne
    exact ⟨by simp [delete_expense], by simp [edit_expense]⟩
  rcases h with h | ⟨n, hn, hrange⟩
  · by_cases hq : lowerStr (pyStrip choice) = "q".toList
    · exact ⟨by simp [delete_expense, hne, hq], by simp [edit_expense, hne, hq]⟩
    · exact ⟨by simp [delete_expense, hne, hq, h], by simp [edit_expense, hne, hq, h]⟩
  · have hq := pyInt_not_q hn
    have hidx : pyIndex (displayed es) (n - 1) = none := by
      apply pyIndex_out
      rw [displayed_length]
      exact hrange
    exact ⟨by simp [delete_expense, hne, hq, hn, hidx],
      by simp [edit_expense, hne, hq, hn, hidx]⟩

theorem C7_invalid_selection_witness :
    delete_expense [⟨10, "A".toList, "2024-01-02".toList⟩] "abc".toList "y".toList =
      ⟨[⟨10, "A".toList, "2024-01-02".toList⟩], false⟩ ∧
    edit_expense [⟨10, "A".toList, "2024-01-02".toList⟩] "9".toList "1".toList
      "c".toList "2024-01-01".toList [] =
      ⟨[⟨10, "A".toList, "2024-01-02".toList⟩], false⟩ :=
  ⟨(C7_invalid_selection [⟨10, "A".toList, "2024-01-02".toList⟩] "abc".toList
      "y".toList "1".toList "c".toList "2024-01-01".toList []
      (Or.inl (by decide))).1,
    (C7_invalid_selection [⟨10, "A".toList, "2024-01-02".toList⟩] "9".toList
      "y".toList "1".toList "c".toList "2024-01-01".toList []
      (Or.inr ⟨9, by decide, Or.inl (by decide)⟩)).2⟩

/-- C8: the total is the sum of all amounts; the by-category report
contains exactly one entry per occurring category carrying the sum of that
category's amounts, listed in descending order of summed amount; the
by-month report groups by the first seven characters of the date
(`YYYY-MM`) and is listed in ascending month-key order; and on the three
example records the reports are Transport(20), Food(15) and
2024-01(30), 2024-02(5) with total 35. -/
theorem C8_summary (es : List Expense) (c mo : List Char) (q : ℚ) :
    viewTotal es = (es.map (fun e => e.amount)).sum ∧
    List.Sorted catRel (byCat es) ∧
    ((c, q) ∈ byCat es ↔
      es.any (fun e => e.category = c) = true ∧
        q = sumAmt (fun e => e.category) c es) ∧
    List.Sorted monRel (byMonth es) ∧
    ((mo, q) ∈ byMonth es ↔
      es.any (fun e => monthOf e = mo) = true ∧ q = sumAmt monthOf mo es) ∧
    viewTotal
      [⟨10, "Food".toList, "2024-01-05".toList⟩,
       ⟨5, "Food".toList, "2024-02-01".toList⟩,
       ⟨20, "Transport".toList, "2024-01-10".toList⟩] = 35 ∧
    byCat
      [⟨10, "Food".toList, "2024-01-05".toList⟩,
       ⟨5, "Food".toList, "2024-02-01".toList⟩,
       ⟨20, "Transport".toList, "2024-01-10".toList⟩] =
      [("Transport".toList, 20), ("Food".toList, 15)] ∧
    byMonth
      [⟨10, "Food".toList, "2024-01-05".toList⟩,
       ⟨5, "Food".toList, "2024-02-01".toList⟩,
       ⟨20, "Transport".toList, "2024-01-10".toList⟩] =
      [("2024-01".toList, 30), ("2024-02".toList, 5)] := by
  refine ⟨rfl, List.sorted_insertionSort catRel _, mem_byCat_iff c q es,
    List.sorted_insertionSort monRel _, mem_byMonth_iff mo q es, ?_, ?_, ?_⟩
  · show ((10 : ℚ) + (5 + (20 + 0))) = 35
    norm_num
  · have hacc : accumBy (fun e => e.category)
        [⟨10, "Food".toList, "2024-01-05".toList⟩,
         ⟨5, "Food".toList, "2024-02-01".toList⟩,
         ⟨20, "Transport".toList, "2024-01-10".toList⟩] =
        [("Food".toList, (10 : ℚ) + 5), ("Transport".toList, 20)] := rfl
    have hsum : (10 : ℚ) + 5 = 15 := by norm_num
    have hno : ¬ catRel ("Food".toList, (15 : ℚ)) ("Transport".toList, 20) := by
      show ¬ (20 : ℚ) ≤ 15
      norm_num
    have h1 : List.insertionSort catRel
        [("Food".toList, (15 : ℚ)), ("Transport".toList, 20)] =
        List.orderedInsert catRel ("Food".toList, (15 : ℚ))
          [("Transport".toList, (20 : ℚ))] := rfl
    have h2 : List.orderedInsert catRel ("Food".toList, (15 : ℚ))
        [("Transport".toList, (20 : ℚ))] =
        if catRel ("Food".toList, (15 : ℚ)) ("Transport".toList, 20) then
          [("Food".toList, (15 : ℚ)), ("Transport".toList, (20 : ℚ))]
        else [("Transport".toList, (20 : ℚ)), ("Food".toList, (15 : ℚ))] := rfl
    rw [byCat, hacc, hsum, h1, h2, if_neg hno]
  · have haccM : accumBy monthOf
        [⟨10, "Food".toList, "2024-01-05".toList⟩,
         ⟨5, "Food".toList, "2024-02-01".toList⟩,
         ⟨20, "Transport".toList, "2024-01-10".toList⟩] =
        [("2024-01".toList, (10 : ℚ) + 20), ("2024-02".toList, 5)] := rfl
    have hsumM : (10 : ℚ) + 20 = 30 := by norm_num
    have hyes : monRel ("2024-01".toList, (30 : ℚ)) ("2024-02".toList, 5) := by
      show strLe "2024-01".toList "2024-02".toList = true
      decide
    have h1 : List.insertionSort monRel
        [("2024-01".toList, (30 : ℚ)), ("2024-02".toList, 5)] =
        List.orderedInsert monRel ("2024-01".toList, (30 : ℚ))
          [("2024-02".toList, (5 : ℚ))] := rfl
    have h2 : List.orderedInsert monRel ("2024-01".toList, (30 : ℚ))
        [("2024-02".toList, (5 : ℚ))] =
        if monRel ("2024-01".toList, (30 : ℚ)) ("2024-02".toList, 5) then
          [("2024-01".toList, (30 : ℚ)), ("2024-02".toList, (5 : ℚ))]
        else [("2024-02".toList, (5 : ℚ)), ("2024-01".toList, (30 : ℚ))] := rfl
    rw [byMonth, haccM, hsumM, h1, h2, if_pos hyes]

/-- C9: the displayed ordering shared by list, edit and delete is the
storage sequence sorted by the date string descending (lexicographic
code-point order, `dateDescRel`), it is a permutation of storage, and the
sort is stable: records with any one date keep their storage order. -/
theorem C9_display_order (es : List Expense) :
    List.Sorted dateDescRel (displayed es) ∧
    (displayed es).Perm es ∧
    ∀ D, (displayed es).filter (fun e => e.date = D) =
      es.filter (fun e => e.date = D) :=
  ⟨List.sorted_insertionSort dateDescRel es, List.perm_insertionSort dateDescRel es,
    fun D => displayed_filter_stable es D⟩

/-- C10 counterexample: `load_expenses` does not validate list elements, so
a backing file holding the JSON list `[1]` loads into an in-memory state
whose element is missing all three record fields — the claimed invariant
fails for states reached through `load` of an arbitrary file. -/
theorem C10_counterexample :
    (load_expenses (.content (some (.jarr [.jnum 1]))) ⟨2024, 1, 5, 0, 0, 0⟩
      true).expenses = [.jnum 1] ∧
    wellFormedRec (.jnum 1) = false :=
  ⟨rfl, rfl⟩

/-- C10 (amended): every record the program itself builds carries all three
fields: the state loaded from a file written by `save` consists of
well-formed records only, and the states produced by add, edit and delete
from any typed state serialize to well-formed records only.  `load` of a
file not produced by `save` may violate the invariant (see the
counterexample). -/
theorem C10_record_fields (es : List Expense) (now : Timestamp) (renameOk : Bool)
    (amtIn catIn dateIn today choice confirm : List Char) :
    (∀ v ∈ (load_expenses (save_expenses es) now renameOk).expenses,
      wellFormedRec v = true) ∧
    (∀ es', addExpense es amtIn catIn dateIn today = some es' →
      ∀ v ∈ es'.map toJVal, wellFormedRec v = true) ∧
    (∀ v ∈ (edit_expense es choice amtIn catIn dateIn today).list.map toJVal,
      wellFormedRec v = true) ∧
    (∀ v ∈ (delete_expense es choice confirm).list.map toJVal,
      wellFormedRec v = true) := by
  have hall : ∀ (l : List Expense), ∀ v ∈ l.map toJVal, wellFormedRec v = true := by
    intro l v hv
    obtain ⟨e, _, rfl⟩ := List.mem_map.mp hv
    exact wellFormed_toJVal e
  refine ⟨?_, fun es' _ => hall es', hall _, hall _⟩
  rw [load_save]
  exact hall es

theorem C10_record_fields_witness :
    ∀ v ∈ (load_expenses (save_expenses [⟨10, "Food".toList, "2024-01-05".toList⟩])
      ⟨2024, 1, 5, 0, 0, 0⟩ true).expenses, wellFormedRec v = true :=
  (C10_record_fields [⟨10, "Food".toList, "2024-01-05".toList⟩] ⟨2024, 1, 5, 0, 0, 0⟩
    true [] [] [] [] [] []).1
